import Mathlib

/-!
# CEX.DEV `src/cex.cpp`: the `Vec3D` value type

A shallow embedding of `struct Vec3D` (three `float` fields) and of its operations
`make`, `copy`, `abs`, `normalize`, the stream insertion `operator<<` and the
driver `main`.

The translated functions are generic in the scalar type `F` that stands for the
C++ type `float`; they use exactly the arithmetic the source uses
(`0`, `+`, `-`, `*`, `/`, `sqrt`, decimal literals).  Two scalar types are
provided:

* `F32`, an executable model of IEEE-754 binary32 (round to nearest, ties to
  even; signed zeros, infinities, a single NaN), which is what `float` is;
* `ℝ`, exact arithmetic, for the statements that are "read over the reals".
-/

namespace Cex

/-! ## IEEE-754 binary32 -/

/-- A binary32 datum.  `fin neg m e` is the finite number `(-1)^neg * m * 2^e`;
the data a `float` can hold are those with `F32.Canonical`.  All NaNs are
identified. -/
inductive F32 where
  | nan : F32
  | inf (neg : Bool) : F32
  | fin (neg : Bool) (m : Nat) (e : Int) : F32
deriving DecidableEq, Repr

namespace F32

/-- Smallest exponent of the unit in the last place: subnormals are multiples
of `2^(-149)`. -/
def emin : Int := -149

/-- Largest exponent of the unit in the last place: the largest finite value is
`(2^24 - 1) * 2^104`. -/
def emax : Int := 104

/-- The finite data of the format: a significand below `2^24`, an exponent in
range, and a full 24-bit significand unless the exponent is the smallest. -/
def Canonical : F32 → Prop
  | nan => True
  | inf _ => True
  | fin _ m e => m < 2 ^ 24 ∧ emin ≤ e ∧ e ≤ emax ∧ (m < 2 ^ 23 → e = emin)

instance : DecidablePred Canonical := fun f =>
  match f with
  | nan => isTrue trivial
  | inf _ => isTrue trivial
  | fin _ m e =>
    inferInstanceAs (Decidable (m < 2 ^ 24 ∧ emin ≤ e ∧ e ≤ emax ∧ (m < 2 ^ 23 → e = emin)))

/-- Signed zero. -/
def zero (neg : Bool) : F32 := fin neg 0 emin

/-- Neither NaN nor an infinity. -/
def isFinite : F32 → Bool
  | fin _ _ _ => true
  | _ => false

/-- The datum is NaN. -/
def isNaN : F32 → Bool
  | nan => true
  | _ => false

/-- The datum is `+0` or `-0`. -/
def isZero : F32 → Bool
  | fin _ m _ => m == 0
  | _ => false

/-- The sign bit is clear and the datum is not NaN: `+0`, a positive finite
number or `+∞`. -/
def isNonneg : F32 → Bool
  | nan => false
  | inf neg => !neg
  | fin neg _ _ => !neg

/-- The exact value of a finite datum. -/
def toRat : F32 → Option ℚ
  | fin neg m e => some ((if neg then -1 else 1) * (m : ℚ) * (2 : ℚ) ^ e)
  | _ => none

/-- Number of binary digits of `n`, with `fuel` an upper bound on that number. -/
def bitLenAux : Nat → Nat → Nat
  | 0, _ => 0
  | fuel + 1, n => if n = 0 then 0 else bitLenAux fuel (n / 2) + 1

/-- Number of binary digits of `n`: the least `k` with `n < 2^k`. -/
def bitLen (n : Nat) : Nat := bitLenAux n n

/-- The finite datum `f` lies within `tol` of the rational `c`. -/
def within (f : F32) (c tol : ℚ) : Prop :=
  ∃ q : ℚ, f.toRat = some q ∧ |q - c| ≤ tol

/-- Last step of rounding: the significand `m` (at most `2^24`) with unit
exponent `e`; a significand that was rounded up to `2^24` is renormalised, and
an exponent above `emax` overflows to infinity. -/
def pack (neg : Bool) (m : Nat) (e : Int) : F32 :=
  if m = 2 ^ 24 then
    if e + 1 > emax then inf neg else fin neg (2 ^ 23) (e + 1)
  else
    if e > emax then inf neg else fin neg m e

/-- Round the exact value `(-1)^neg * m * 2^e` to binary32, to nearest with
ties to even.  The unit exponent `u` of the result is the one that leaves 24
significant bits, but not below `emin` (gradual underflow). -/
def round (neg : Bool) (m : Nat) (e : Int) : F32 :=
  if m = 0 then zero neg
  else
    let len : Int := (bitLen m : Int)
    let u : Int := max (e + len - 24) emin
    if u ≤ e then
      pack neg (m * 2 ^ (e - u).toNat) u
    else
      let s : Nat := (u - e).toNat
      let q : Nat := m / 2 ^ s
      let r : Nat := m % 2 ^ s
      let half : Nat := 2 ^ (s - 1)
      if r > half ∨ (r = half ∧ q % 2 = 1) then pack neg (q + 1) u
      else pack neg q u

/-- Floor of the square root, by bisection on the bits of the result:
`sqrtBits n k r` completes `r` over the bit positions below `k`. -/
def sqrtBits (n : Nat) : Nat → Nat → Nat
  | 0, r => r
  | k + 1, r =>
    let c := r + 2 ^ k
    if c * c ≤ n then sqrtBits n k c else sqrtBits n k r

/-- Floor of the square root of `n`. -/
def isqrt (n : Nat) : Nat := sqrtBits n ((bitLen n + 1) / 2) 0

/-- Round the exact quotient `(-1)^neg * (m / n) * 2^e`, for `n ≠ 0`.  The
integer quotient is taken with at least 27 significant bits and a sticky bit
records a non-zero remainder. -/
def roundQuot (neg : Bool) (m n : Nat) (e : Int) : F32 :=
  let k : Nat := bitLen n + 26
  let q : Nat := (m * 2 ^ k) / n
  let r : Nat := (m * 2 ^ k) % n
  round neg (2 * q + (if r = 0 then 0 else 1)) (e - (k : Int) - 1)

/-- Negation: flips the sign bit. -/
def neg : F32 → F32
  | nan => nan
  | inf s => inf (!s)
  | fin s m e => fin (!s) m e

/-- Addition. -/
def add : F32 → F32 → F32
  | nan, _ => nan
  | _, nan => nan
  | inf s, inf t => if s = t then inf s else nan
  | inf s, fin _ _ _ => inf s
  | fin _ _ _, inf t => inf t
  | fin s m e, fin t n f =>
    let u : Int := min e f
    let a : Int := (if s then -1 else 1) * ((m * 2 ^ (e - u).toNat : Nat) : Int)
    let b : Int := (if t then -1 else 1) * ((n * 2 ^ (f - u).toNat : Nat) : Int)
    let c : Int := a + b
    if c = 0 then zero (s && t)
    else round (decide (c < 0)) c.natAbs u

/-- Subtraction. -/
def sub (a b : F32) : F32 := add a (neg b)

/-- Multiplication. -/
def mul : F32 → F32 → F32
  | nan, _ => nan
  | _, nan => nan
  | inf s, inf t => inf (xor s t)
  | inf s, fin t n _ => if n = 0 then nan else inf (xor s t)
  | fin s m _, inf t => if m = 0 then nan else inf (xor s t)
  | fin s m e, fin t n f => round (xor s t) (m * n) (e + f)

/-- Division. -/
def div : F32 → F32 → F32
  | nan, _ => nan
  | _, nan => nan
  | inf _, inf _ => nan
  | inf s, fin t _ _ => inf (xor s t)
  | fin s _ _, inf t => zero (xor s t)
  | fin s m e, fin t n f =>
    if n = 0 then
      if m = 0 then nan else inf (xor s t)
    else roundQuot (xor s t) m n (e - f)

/-- Square root. -/
def sqrt : F32 → F32
  | nan => nan
  | inf s => if s then nan else inf false
  | fin s m e =>
    if m = 0 then zero s
    else if s then nan
    else
      let k : Nat := if e % 2 = 0 then 52 else 53
      let n : Nat := m * 2 ^ k
      let r : Nat := isqrt n
      round false (2 * r + (if r * r = n then 0 else 1)) ((e - (k : Int)) / 2 - 1)

/-- The decimal literal `m * 10^e` (`m / 10^e` when `s` is set), rounded. -/
def ofScientific (m : Nat) (s : Bool) (e : Nat) : F32 :=
  if s then roundQuot false m (10 ^ e) 0 else round false (m * 10 ^ e) 0

/-- The integer `n`, rounded. -/
def ofNat (n : Nat) : F32 := round false n 0

/-- The real number a finite datum stands for (`0` for NaN and the infinities). -/
noncomputable def toReal : F32 → ℝ
  | fin neg m e => (if neg then -1 else 1) * ((m : ℝ) * (2 : ℝ) ^ e)
  | _ => 0

/-- A zero of either sign, or a normal number `a` with `2^-63 ≤ |a| < 2^61`:
the components whose squares, and the sums of whose squares, neither overflow
nor fall into the subnormal range. -/
def InRange : F32 → Prop
  | fin _ m e => m = 0 ∨ (2 ^ 23 ≤ m ∧ m < 2 ^ 24 ∧ -86 ≤ e ∧ e ≤ 37)
  | _ => False

instance : DecidablePred InRange := fun f =>
  match f with
  | nan => isFalse id
  | inf _ => isFalse id
  | fin _ m e =>
    inferInstanceAs (Decidable (m = 0 ∨ (2 ^ 23 ≤ m ∧ m < 2 ^ 24 ∧ -86 ≤ e ∧ e ≤ 37)))

/-- The datum is `+0` or a positive normal number with exponent at most `K`. -/
def NormalOrZero (K : Int) (f : F32) : Prop :=
  f = zero false ∨
    ∃ M E, f = fin false M E ∧ 2 ^ 23 ≤ M ∧ M < 2 ^ 24 ∧ emin ≤ E ∧ E ≤ K

instance : Zero F32 := ⟨zero false⟩
instance : Add F32 := ⟨add⟩
instance : Sub F32 := ⟨sub⟩
instance : Mul F32 := ⟨mul⟩
instance : Div F32 := ⟨div⟩
instance : Neg F32 := ⟨neg⟩
instance : OfScientific F32 := ⟨ofScientific⟩
instance (n : Nat) : OfNat F32 n := ⟨ofNat n⟩

end F32

/-! ## The scalar interface -/

/-- The function `sqrt` of `<cmath>` on the scalar type. -/
class HasSqrt (F : Type) where
  /-- The square root. -/
  sqrt : F → F

/-- On `float` the call `sqrt(x)` yields the correctly rounded binary32 square
root, whether it resolves to the `float` overload or to `double sqrt(double)`
followed by the conversion of the returned value to `float`. -/
instance : HasSqrt F32 := ⟨F32.sqrt⟩

/-- Exact arithmetic: the real square root. -/
noncomputable instance : HasSqrt ℝ := ⟨Real.sqrt⟩

/-! ## `struct Vec3D` and its operations -/

/-- Embedding of `struct Vec3D { float x, y, z; }`. -/
structure Vec3D (F : Type) where
  x : F
  y : F
  z : F
deriving DecidableEq, Repr

namespace Vec3D

variable {F : Type}

/-- Embedding of `Vec3D::make`: the aggregate `{ .x = 0, .y = 0, .z = 0 }`. -/
def make [Zero F] : Vec3D F :=
  { x := 0, y := 0, z := 0 }

/-- Embedding of `Vec3D::copy`: `return *this;`.  A member function is a state
transformer on the receiver: the first component is the returned value, the
second the receiver after the call. -/
def copy (self : Vec3D F) : Vec3D F × Vec3D F :=
  (self, self)

/-- Embedding of `Vec3D::abs`: the three fields are read into locals and
`sqrt(x*x + y*y + z*z)` is returned (`+` associates to the left).  First
component: the returned value; second: the receiver after the call. -/
def abs [Add F] [Mul F] [HasSqrt F] (self : Vec3D F) : F × Vec3D F :=
  let x := self.x
  let y := self.y
  let z := self.z
  (HasSqrt.sqrt (x * x + y * y + z * z), self)

/-- Embedding of `Vec3D::normalize`: three assignments in sequence, each of
which calls `abs()` on the receiver as it is at that moment. -/
def normalize [Add F] [Mul F] [Div F] [HasSqrt F] (self : Vec3D F) : Vec3D F :=
  -- this->x = this->x / abs();
  let a := self.abs
  let self := { a.2 with x := a.2.x / a.1 }
  -- this->y = this->y / abs();
  let a := self.abs
  let self := { a.2 with y := a.2.y / a.1 }
  -- this->z = this->z / abs();
  let a := self.abs
  { a.2 with z := a.2.z / a.1 }

/-- The compute-the-magnitude-once normalisation, written from the words of the
specification (not from the source): every component is divided by the
magnitude the vector has when the call starts. -/
def normalizeOnce [Add F] [Mul F] [Div F] [HasSqrt F] (self : Vec3D F) : Vec3D F :=
  let m := self.abs.1
  { x := self.x / m, y := self.y / m, z := self.z / m }

/-- The three data members of `Vec3D`. -/
inductive Field where
  | x
  | y
  | z
deriving DecidableEq, Repr

/-- Embedding of the assignment `v.f = a` to one data member. -/
def assign (f : Field) (a : F) (v : Vec3D F) : Vec3D F :=
  match f with
  | .x => { v with x := a }
  | .y => { v with y := a }
  | .z => { v with z := a }

end Vec3D

/-- Two `Vec3D` objects side by side, as in `pos2 = pos1.copy();`: the receiver
of `copy` and the object that holds the returned value. -/
structure Objects (F : Type) where
  receiver : Vec3D F
  result : Vec3D F

/-- The objects after `result = receiver.copy();`. -/
def Objects.afterCopy {F : Type} (v : Vec3D F) : Objects F :=
  let r := v.copy
  { receiver := r.2, result := r.1 }

/-- The assignment `result.f = a`: it writes to the object `result` only. -/
def Objects.assignResult {F : Type} (s : Objects F) (w : Vec3D.Field × F) : Objects F :=
  { s with result := s.result.assign w.1 w.2 }

/-! ## Stream insertion and the driver -/

/-- The manipulator `endl` as text: a line break (the flush writes nothing). -/
def endl : String := "\n"

/-- Embedding of `operator<<(ostream& os, Vec3D& pos)`.  The stream is the text
written to it so far; `render` is the insertion of a `float` by the standard
library.  First component: the stream after the call; second: `pos` after the
call (it is passed by non-const reference). -/
def operatorLtLt {F : Type} (render : F → String) (os : String) (pos : Vec3D F) :
    String × Vec3D F :=
  let os := os ++ "struct Vec3D \x7b" ++ endl
  let os := os ++ "\t.x = " ++ render pos.x ++ endl
  let os := os ++ "\t.y = " ++ render pos.y ++ endl
  let os := os ++ "\t.z = " ++ render pos.z ++ endl
  let os := os ++ "\x7d" ++ endl
  (os, pos)

/-- The state of `main`: its two locals and the text written to `cout`.
`pos2` is declared without an initialiser and holds no value until it is
assigned. -/
structure MainState (F : Type) where
  pos1 : Vec3D F
  pos2 : Option (Vec3D F)
  cout : String

section Main

variable {F : Type} [Zero F] [Add F] [Sub F] [Mul F] [Div F] [HasSqrt F] [OfScientific F]

/-- Lines 57-61 of `main`: `pos1 = Vec3D::make()`, then `"Before:"` and `pos1`
are written. -/
def mainBefore (render : F → String) : MainState F :=
  let pos1 : Vec3D F := Vec3D.make
  let cout := "" ++ "Before:" ++ endl
  let r := operatorLtLt render cout pos1
  { pos1 := r.2, pos2 := none, cout := r.1 ++ endl }

/-- Lines 63-64 of `main`: `pos1.x += 1.3f; pos1.y -= 9.8f;`. -/
def mainMutated (render : F → String) : MainState F :=
  let s := mainBefore render
  let pos1 := s.pos1
  let pos1 := { pos1 with x := pos1.x + 1.3 }
  let pos1 := { pos1 with y := pos1.y - 9.8 }
  { s with pos1 := pos1 }

/-- Line 65 of `main`: `pos1.normalize();`. -/
def mainNormalized (render : F → String) : MainState F :=
  let s := mainMutated render
  { s with pos1 := s.pos1.normalize }

/-- Lines 67-73 of `main`: `"After:"` and `pos1` are written, `pos2` receives
`pos1.copy()`, then `"Vec3D2:"` and `pos2` are written. -/
def mainAfter (render : F → String) : MainState F :=
  let s := mainNormalized render
  let cout := s.cout ++ "After:" ++ endl
  let r := operatorLtLt render cout s.pos1
  let cout := r.1 ++ endl
  let c := r.2.copy
  let pos1 := c.2
  let pos2 := c.1
  let cout := cout ++ "Vec3D2:" ++ endl
  let r := operatorLtLt render cout pos2
  { pos1 := pos1, pos2 := some r.2, cout := r.1 ++ endl }

/-- Embedding of `main`: the exit status and the text on standard output. -/
def main (render : F → String) : Int × String :=
  (0, (mainAfter render).cout)

end Main


/-! ## Facts about the binary32 model -/

namespace F32

theorem canonical_nan : Canonical nan := True.intro

theorem canonical_inf (s : Bool) : Canonical (inf s) := True.intro

theorem canonical_fin_iff (s : Bool) (m : Nat) (e : Int) :
    Canonical (fin s m e) ↔ m < 2 ^ 24 ∧ emin ≤ e ∧ e ≤ emax ∧ (m < 2 ^ 23 → e = emin) :=
  Iff.rfl

attribute [irreducible] Canonical

theorem isNonneg_pack (m : Nat) (e : Int) : (pack false m e).isNonneg = true := by
  unfold pack
  split_ifs <;> rfl

theorem isNonneg_round (m : Nat) (e : Int) : (round false m e).isNonneg = true := by
  unfold round
  simp only []
  split_ifs
  · rfl
  · exact isNonneg_pack _ _
  · exact isNonneg_pack _ _
  · exact isNonneg_pack _ _

theorem mul_def (a b : F32) : a * b = mul a b := rfl
theorem add_def (a b : F32) : a + b = add a b := rfl
theorem div_def (a b : F32) : a / b = div a b := rfl
theorem sqrt_def (a : F32) : HasSqrt.sqrt a = sqrt a := rfl

theorem isNonneg_mul_self (a : F32) (h : a.isFinite = true) : (a * a).isNonneg = true := by
  cases a with
  | nan => simp [isFinite] at h
  | inf s => simp [isFinite] at h
  | fin s m e =>
    rw [mul_def]
    simp only [mul, Bool.xor_self]
    exact isNonneg_round _ _

theorem isNonneg_add (a b : F32) (ha : a.isNonneg = true) (hb : b.isNonneg = true) :
    (a + b).isNonneg = true := by
  rw [add_def]
  cases a with
  | nan => simp [isNonneg] at ha
  | inf s =>
    cases b with
    | nan => simp [isNonneg] at hb
    | inf t =>
      simp [isNonneg] at ha hb
      subst ha hb
      simp [add, isNonneg]
    | fin t n f =>
      simp [isNonneg] at ha
      subst ha
      simp [add, isNonneg]
  | fin s m e =>
    cases b with
    | nan => simp [isNonneg] at hb
    | inf t =>
      simp [isNonneg] at hb
      subst hb
      simp [add, isNonneg]
    | fin t n f =>
      simp [isNonneg] at ha hb
      subst ha hb
      simp only [add, Bool.false_eq_true, if_false, one_mul, Bool.and_self]
      split_ifs with h0
      · rfl
      · have hc : ¬ (((m * 2 ^ (e - min e f).toNat : Nat) : Int)
            + ((n * 2 ^ (f - min e f).toNat : Nat) : Int) < 0) := by
          have h1 : (0 : Int) ≤ ((m * 2 ^ (e - min e f).toNat : Nat) : Int) := Int.ofNat_nonneg _
          have h2 : (0 : Int) ≤ ((n * 2 ^ (f - min e f).toNat : Nat) : Int) := Int.ofNat_nonneg _
          omega
        rw [decide_eq_false hc]
        exact isNonneg_round _ _

theorem isNonneg_sqrt (a : F32) (ha : a.isNonneg = true) : (sqrt a).isNonneg = true := by
  cases a with
  | nan => simp [isNonneg] at ha
  | inf s =>
    simp [isNonneg] at ha
    subst ha
    simp [sqrt, isNonneg]
  | fin s m e =>
    simp [isNonneg] at ha
    subst ha
    simp only [sqrt, Bool.false_eq_true, if_false]
    by_cases hm : m = 0
    · simp [hm, zero, isNonneg]
    · rw [if_neg hm]
      exact isNonneg_round _ _

theorem round_zero (s : Bool) (e : Int) : round s 0 e = zero s := by
  simp [round]

theorem eq_zero_of_isZero (a : F32) (h : a.isZero = true) :
    ∃ (s : Bool) (e : Int), a = fin s 0 e := by
  cases a with
  | nan => simp [isZero] at h
  | inf s => simp [isZero] at h
  | fin s m e =>
    simp only [isZero, beq_iff_eq] at h
    exact ⟨s, e, by rw [h]⟩

theorem mul_self_of_isZero (a : F32) (h : a.isZero = true) : a * a = zero false := by
  obtain ⟨s, e, rfl⟩ := eq_zero_of_isZero a h
  rw [mul_def]
  simp [mul, round_zero]

theorem zero_add_zero : zero false + zero false = zero false := by decide

theorem sqrt_zero : sqrt (zero false) = zero false := by decide

theorem div_zero_of_isZero (a : F32) (h : a.isZero = true) : a / zero false = nan := by
  obtain ⟨s, e, rfl⟩ := eq_zero_of_isZero a h
  rw [div_def]
  simp [div, zero]

theorem nan_mul (a : F32) : nan * a = nan := by
  cases a <;> rfl

theorem nan_add (a : F32) : nan + a = nan := by
  cases a <;> rfl

theorem add_nan (a : F32) : a + nan = nan := by
  cases a <;> rfl

theorem div_nan (a : F32) : a / nan = nan := by
  cases a <;> rfl

theorem sqrt_nan : sqrt nan = nan := rfl

theorem bitLenAux_spec : ∀ (fuel n : Nat), n ≤ fuel →
    n < 2 ^ bitLenAux fuel n ∧ (n ≠ 0 → 2 ^ (bitLenAux fuel n - 1) ≤ n)
  | 0, n, h => by
    have h0 : n = 0 := Nat.le_zero.mp h
    subst h0
    simp [bitLenAux]
  | fuel + 1, n, h => by
    by_cases hn : n = 0
    · subst hn
      simp [bitLenAux]
    · have hle : n / 2 ≤ fuel := by omega
      obtain ⟨h1, h2⟩ := bitLenAux_spec fuel (n / 2) hle
      simp only [bitLenAux, hn, if_false, Nat.add_sub_cancel]
      refine ⟨by rw [pow_succ]; omega, fun _ => ?_⟩
      by_cases h0 : n / 2 = 0
      · have hk : bitLenAux fuel (n / 2) = 0 := by
          rw [h0]
          cases fuel <;> simp [bitLenAux]
        rw [hk]
        simp
        omega
      · have h3 := h2 h0
        have hk : 0 < bitLenAux fuel (n / 2) := by
          by_contra hk
          have hk0 : bitLenAux fuel (n / 2) = 0 := by omega
          rw [hk0] at h1
          simp at h1
          exact h0 h1
        have h4 : 2 ^ bitLenAux fuel (n / 2) = 2 ^ (bitLenAux fuel (n / 2) - 1) * 2 := by
          rw [← pow_succ]
          congr 1
          omega
        omega

theorem lt_two_pow_bitLen (n : Nat) : n < 2 ^ bitLen n :=
  (bitLenAux_spec n n le_rfl).1

theorem two_pow_bitLen_le (n : Nat) (h : n ≠ 0) : 2 ^ (bitLen n - 1) ≤ n :=
  (bitLenAux_spec n n le_rfl).2 h

theorem bitLen_le_of_lt (n k : Nat) (h : n < 2 ^ k) : bitLen n ≤ k := by
  by_cases hn : n = 0
  · subst hn
    simp [bitLen, bitLenAux]
  · have h1 := two_pow_bitLen_le n hn
    have h2 : 2 ^ (bitLen n - 1) < 2 ^ k := lt_of_le_of_lt h1 h
    have h3 := (Nat.pow_lt_pow_iff_right (by norm_num : 1 < 2)).mp h2
    omega

theorem sqrtBits_sq_le (n : Nat) :
    ∀ (k r : Nat), r * r ≤ n → sqrtBits n k r * sqrtBits n k r ≤ n
  | 0, r, h => by simpa [sqrtBits] using h
  | k + 1, r, h => by
    simp only [sqrtBits]
    split_ifs with hc
    · exact sqrtBits_sq_le n k _ hc
    · exact sqrtBits_sq_le n k r h

theorem lt_sqrtBits_succ_sq (n : Nat) :
    ∀ (k r : Nat), n < (r + 2 ^ k) * (r + 2 ^ k) →
      n < (sqrtBits n k r + 1) * (sqrtBits n k r + 1)
  | 0, r, h => by simpa [sqrtBits] using h
  | k + 1, r, h => by
    simp only [sqrtBits]
    split_ifs with hc
    · apply lt_sqrtBits_succ_sq n k
      have e : r + 2 ^ k + 2 ^ k = r + 2 ^ (k + 1) := by rw [pow_succ]; omega
      rw [e]
      exact h
    · exact lt_sqrtBits_succ_sq n k r (not_le.mp hc)

theorem isqrt_sq_le (n : Nat) : isqrt n * isqrt n ≤ n :=
  sqrtBits_sq_le n _ 0 (by simp)

/-- The bisection computes the integer square root. -/
theorem isqrt_eq_sqrt (n : Nat) : isqrt n = Nat.sqrt n := by
  apply Nat.eq_sqrt.mpr
  refine ⟨isqrt_sq_le n, ?_⟩
  apply lt_sqrtBits_succ_sq
  have h1 := lt_two_pow_bitLen n
  have h2 : 2 ^ bitLen n ≤ 2 ^ ((bitLen n + 1) / 2 + (bitLen n + 1) / 2) :=
    Nat.pow_le_pow_right (by norm_num) (by omega)
  rw [pow_add] at h2
  simpa using lt_of_lt_of_le h1 h2

theorem isFinite_pack (s : Bool) (m : Nat) (e : Int) (h : e + 1 ≤ emax) :
    (pack s m e).isFinite = true := by
  unfold pack
  simp only [emax] at *
  split_ifs <;> first | rfl | omega

theorem isFinite_round (s : Bool) (m : Nat) (e : Int) (h : e + bitLen m ≤ 127) :
    (round s m e).isFinite = true := by
  unfold round
  simp only []
  split_ifs
  · rfl
  all_goals
    apply isFinite_pack
    simp only [emax, emin]
    omega

theorem canonical_pack (s : Bool) (m : Nat) (u : Int) (hm : m ≤ 2 ^ 24) (hu : emin ≤ u)
    (hn : m < 2 ^ 23 → u = emin) : Canonical (pack s m u) := by
  unfold pack
  split_ifs with h1 h2 h3
  · exact canonical_inf _
  · rw [canonical_fin_iff]
    simp only [emin, emax] at *
    exact ⟨by norm_num, by omega, by omega, fun h => absurd h (by norm_num)⟩
  · exact canonical_inf _
  · rw [canonical_fin_iff]
    exact ⟨lt_of_le_of_ne hm h1, hu, not_lt.mp h3, hn⟩

theorem mul_pow_lt (m L d : Nat) (h : m < 2 ^ L) (hd : L + d ≤ 24) : m * 2 ^ d < 2 ^ 24 := by
  have h1 : m * 2 ^ d < 2 ^ L * 2 ^ d := Nat.mul_lt_mul_of_pos_right h (by positivity)
  have h2 : 2 ^ L * 2 ^ d ≤ 2 ^ 24 := by
    rw [← pow_add]
    exact Nat.pow_le_pow_right (by norm_num) hd
  exact lt_of_lt_of_le h1 h2

theorem le_mul_pow (m L d : Nat) (h : 2 ^ (L - 1) ≤ m) (hd : L - 1 + d = 23) :
    2 ^ 23 ≤ m * 2 ^ d := by
  have h1 : 2 ^ (L - 1) * 2 ^ d ≤ m * 2 ^ d := Nat.mul_le_mul_right _ h
  rw [← pow_add, hd] at h1
  exact h1

theorem div_pow_lt (m L s : Nat) (h : m < 2 ^ L) (hs : L ≤ s + 24) : m / 2 ^ s < 2 ^ 24 := by
  rw [Nat.div_lt_iff_lt_mul (by positivity)]
  have h2 : 2 ^ L ≤ 2 ^ 24 * 2 ^ s := by
    rw [← pow_add]
    exact Nat.pow_le_pow_right (by norm_num) (by omega)
  exact lt_of_lt_of_le h h2

theorem le_div_pow (m L s : Nat) (h : 2 ^ (L - 1) ≤ m) (hs : L - 1 = 23 + s) :
    2 ^ 23 ≤ m / 2 ^ s := by
  rw [Nat.le_div_iff_mul_le (by positivity), ← pow_add, ← hs]
  exact h

theorem bitLen_pos (m : Nat) (h : m ≠ 0) : 0 < bitLen m := by
  by_contra hk
  have h0 : bitLen m = 0 := by omega
  have h1 := lt_two_pow_bitLen m
  rw [h0] at h1
  simp at h1
  exact h h1

/-- Rounding always yields a datum of the format. -/
theorem canonical_round (s : Bool) (m : Nat) (e : Int) : Canonical (round s m e) := by
  unfold round
  simp only []
  by_cases h0 : m = 0
  · rw [if_pos h0]
    exact (canonical_fin_iff _ _ _).mpr ⟨by norm_num, le_rfl, by decide, fun _ => rfl⟩
  rw [if_neg h0]
  have hL1 := lt_two_pow_bitLen m
  have hL2 := two_pow_bitLen_le m h0
  have hL0 := bitLen_pos m h0
  generalize bitLen m = L at *
  have hq : m / 2 ^ (max (e + (L : Int) - 24) emin - e).toNat < 2 ^ 24 :=
    div_pow_lt m L _ hL1 (by simp only [emin]; omega)
  have hq2 : ¬ max (e + (L : Int) - 24) emin ≤ e →
      m / 2 ^ (max (e + (L : Int) - 24) emin - e).toNat < 2 ^ 23 →
      max (e + (L : Int) - 24) emin = emin := by
    intro hu hlt
    by_contra hne
    have h3 := le_div_pow m L (max (e + (L : Int) - 24) emin - e).toNat hL2
      (by simp only [emin] at *; omega)
    omega
  have hmin : emin ≤ max (e + (L : Int) - 24) emin := le_max_right _ _
  split_ifs with hu hr
  · apply canonical_pack _ _ _ _ hmin
    · intro hlt
      by_contra hne
      have h3 := le_mul_pow m L (e - max (e + (L : Int) - 24) emin).toNat hL2
        (by simp only [emin] at *; omega)
      omega
    · exact le_of_lt (mul_pow_lt m L _ hL1 (by simp only [emin] at *; omega))
  · exact canonical_pack _ _ _ (by omega) hmin (fun hlt => hq2 hu (by omega))
  · exact canonical_pack _ _ _ (le_of_lt hq) hmin (hq2 hu)

theorem canonical_zero (s : Bool) : Canonical (zero s) :=
  (canonical_fin_iff _ _ _).mpr ⟨by norm_num, le_rfl, by decide, fun _ => rfl⟩

theorem canonical_roundQuot (s : Bool) (m n : Nat) (e : Int) :
    Canonical (roundQuot s m n e) := by
  unfold roundQuot
  exact canonical_round _ _ _

/-- Every sum is a datum of the format. -/
theorem canonical_add (a b : F32) : Canonical (a + b) := by
  rw [add_def]
  cases a with
  | nan => cases b <;> exact canonical_nan
  | inf s =>
    cases b with
    | nan => exact canonical_nan
    | inf t =>
      simp only [add]
      split_ifs
      · exact canonical_inf _
      · exact canonical_nan
    | fin t n f => exact canonical_inf _
  | fin s m e =>
    cases b with
    | nan => exact canonical_nan
    | inf t => exact canonical_inf _
    | fin t n f =>
      simp only [add]
      split_ifs <;> first | exact canonical_zero _ | exact canonical_round _ _ _

/-- Every product is a datum of the format. -/
theorem canonical_mul (a b : F32) : Canonical (a * b) := by
  rw [mul_def]
  cases a with
  | nan => cases b <;> exact canonical_nan
  | inf s =>
    cases b with
    | nan => exact canonical_nan
    | inf t => exact canonical_inf _
    | fin t n f =>
      simp only [mul]
      split_ifs
      · exact canonical_nan
      · exact canonical_inf _
  | fin s m e =>
    cases b with
    | nan => exact canonical_nan
    | inf t =>
      simp only [mul]
      split_ifs
      · exact canonical_nan
      · exact canonical_inf _
    | fin t n f => exact canonical_round _ _ _

/-- Every quotient is a datum of the format. -/
theorem canonical_div (a b : F32) : Canonical (a / b) := by
  rw [div_def]
  cases a with
  | nan => cases b <;> exact canonical_nan
  | inf s =>
    cases b with
    | nan => exact canonical_nan
    | inf t => exact canonical_nan
    | fin t n f => exact canonical_inf _
  | fin s m e =>
    cases b with
    | nan => exact canonical_nan
    | inf t => exact canonical_zero _
    | fin t n f =>
      simp only [div]
      split_ifs
      · exact canonical_nan
      · exact canonical_inf _
      · exact canonical_roundQuot _ _ _ _

/-- Every square root is a datum of the format. -/
theorem canonical_sqrt (a : F32) : Canonical (sqrt a) := by
  cases a with
  | nan => exact canonical_nan
  | inf s =>
    simp only [sqrt]
    split_ifs
    · exact canonical_nan
    · exact canonical_inf _
  | fin s m e =>
    simp only [sqrt]
    split_ifs <;>
      first | exact canonical_zero _ | exact canonical_nan | exact canonical_round _ _ _

theorem isqrt_lt (n k : Nat) (h : n < 2 ^ (2 * k)) : isqrt n < 2 ^ k := by
  by_contra hc
  have h1 : 2 ^ k ≤ isqrt n := not_lt.mp hc
  have h2 : 2 ^ k * 2 ^ k ≤ isqrt n * isqrt n := Nat.mul_le_mul h1 h1
  have h3 := isqrt_sq_le n
  rw [← pow_add] at h2
  have h4 : k + k = 2 * k := by omega
  rw [h4] at h2
  omega

/-- The square root of a finite non-negative datum of the format is finite. -/
theorem isFinite_sqrt (a : F32) (hc : Canonical a) (hn : a.isNonneg = true)
    (hf : a.isFinite = true) : (sqrt a).isFinite = true := by
  cases a with
  | nan => simp [isFinite] at hf
  | inf s => simp [isFinite] at hf
  | fin s m e =>
    simp [isNonneg] at hn
    subst hn
    obtain ⟨hm, -, he, -⟩ := (canonical_fin_iff _ _ _).mp hc
    simp only [sqrt, Bool.false_eq_true, if_false]
    by_cases h0 : m = 0
    · rw [if_pos h0]
      rfl
    rw [if_neg h0]
    apply isFinite_round
    have hk : (if e % 2 = 0 then 52 else 53 : Nat) ≤ 53 := by split_ifs <;> omega
    have hk2 : 52 ≤ (if e % 2 = 0 then 52 else 53 : Nat) := by split_ifs <;> omega
    generalize (if e % 2 = 0 then 52 else 53 : Nat) = k at *
    have hn : m * 2 ^ k < 2 ^ (2 * 39) := by
      have h1 : m * 2 ^ k < 2 ^ 24 * 2 ^ k := Nat.mul_lt_mul_of_pos_right hm (by positivity)
      have h2 : 2 ^ 24 * 2 ^ k ≤ 2 ^ (2 * 39) := by
        rw [← pow_add]
        exact Nat.pow_le_pow_right (by norm_num) (by omega)
      exact lt_of_lt_of_le h1 h2
    have hr := isqrt_lt _ _ hn
    have hc1 : (if isqrt (m * 2 ^ k) * isqrt (m * 2 ^ k) = m * 2 ^ k then 0 else 1 : Nat) ≤ 1 := by
      split_ifs <;> omega
    have hb : bitLen (2 * isqrt (m * 2 ^ k)
        + (if isqrt (m * 2 ^ k) * isqrt (m * 2 ^ k) = m * 2 ^ k then 0 else 1)) ≤ 40 := by
      apply bitLen_le_of_lt
      have h40 : (2 : Nat) ^ 40 = 2 * 2 ^ 39 := by norm_num
      omega
    simp only [emax] at he
    omega

theorem isFinite_of_isFinite_sqrt (a : F32) (h : (sqrt a).isFinite = true) :
    a.isFinite = true := by
  cases a with
  | nan => simp [sqrt, isFinite] at h
  | inf s => cases s <;> simp [sqrt, isFinite] at h
  | fin s m e => rfl

theorem isNaN_eq_false_of_isNonneg (a : F32) (h : a.isNonneg = true) : a.isNaN = false := by
  cases a with
  | nan => simp [isNonneg] at h
  | inf s => rfl
  | fin s m e => rfl

theorem eq_inf_of_isNonneg (a : F32) (h : a.isNonneg = true) (hf : a.isFinite = false) :
    a = inf false := by
  cases a with
  | nan => simp [isNonneg] at h
  | inf s =>
    simp [isNonneg] at h
    rw [h]
  | fin s m e => simp [isFinite] at hf

theorem bitLen_zero : bitLen 0 = 0 := rfl

theorem bitLen_eq (n L : Nat) (hL : 0 < L) (h1 : 2 ^ (L - 1) ≤ n) (h2 : n < 2 ^ L) :
    bitLen n = L := by
  have h3 := bitLen_le_of_lt n L h2
  have h4 := lt_two_pow_bitLen n
  by_contra hne
  have h5 : bitLen n ≤ L - 1 := by omega
  have h6 : 2 ^ bitLen n ≤ 2 ^ (L - 1) := Nat.pow_le_pow_right (by norm_num) h5
  omega

/-- Rounding a number with more than 24 binary digits, above the subnormal
range: the last `L - 24` digits are dropped and the rest is rounded to nearest,
ties to even. -/
theorem round_of_bitLen (neg : Bool) (m : Nat) (e : Int) (L : Nat) (hL : bitLen m = L)
    (h24 : 24 < L) (hu : emin ≤ e + (L : Int) - 24) :
    round neg m e =
      if m % 2 ^ (L - 24) > 2 ^ (L - 25)
          ∨ (m % 2 ^ (L - 24) = 2 ^ (L - 25) ∧ m / 2 ^ (L - 24) % 2 = 1) then
        pack neg (m / 2 ^ (L - 24) + 1) (e + (L : Int) - 24)
      else pack neg (m / 2 ^ (L - 24)) (e + (L : Int) - 24) := by
  have h0 : m ≠ 0 := by
    intro h
    rw [h, bitLen_zero] at hL
    omega
  have hmax : max (e + (L : Int) - 24) emin = e + (L : Int) - 24 := max_eq_left hu
  have hnle : ¬ (e + (L : Int) - 24 ≤ e) := by omega
  have hs : (e + (L : Int) - 24 - e).toNat = L - 24 := by omega
  have hs1 : L - 24 - 1 = L - 25 := by omega
  unfold round
  simp only []
  rw [if_neg h0, hL, hmax, if_neg hnle, hs, hs1]

/-- A number strictly between `(m - 1/2) * 2^(j+1)` and `(m + 1/2) * 2^(j+1)`,
with `m` a full 24-bit significand, rounds to `m` at the exponent of `2^(j+1)`. -/
theorem round_near (neg : Bool) (m N j : Nat) (e : Int)
    (hm1 : 2 ^ 23 ≤ m) (hm2 : m < 2 ^ 24) (he1 : emin ≤ e) (he2 : e ≤ emax)
    (h0 : 2 ^ (24 + j) ≤ N) (h1 : 2 * (m * 2 ^ j) < N + 2 ^ j)
    (h2 : N < 2 * (m * 2 ^ j) + 2 ^ j) :
    round neg N (e - ((j : Int) + 1)) = fin neg m e := by
  have hT : 0 < 2 ^ j := by positivity
  have hK : m * 2 ^ j + 2 ^ j ≤ 2 ^ 24 * 2 ^ j := by
    have h : (m + 1) * 2 ^ j ≤ 2 ^ 24 * 2 ^ j := Nat.mul_le_mul_right _ hm2
    rw [Nat.add_mul, Nat.one_mul] at h
    exact h
  have hp1 : 2 ^ (24 + j) = 2 ^ 24 * 2 ^ j := pow_add 2 24 j
  have hp2 : 2 ^ (25 + j) = 2 * (2 ^ 24 * 2 ^ j) := by
    rw [pow_add]
    norm_num
    ring
  have hp3 : 2 ^ (j + 1) = 2 * 2 ^ j := by rw [pow_succ]; ring
  have hmD : m * 2 ^ (j + 1) = 2 * (m * 2 ^ j) := by rw [hp3]; ring
  have hbl : bitLen N = 25 + j := by
    apply bitLen_eq _ _ (by omega)
    · have : 25 + j - 1 = 24 + j := by omega
      rw [this]
      exact h0
    · rw [hp2]
      omega
  have hu : emin ≤ e - ((j : Int) + 1) + ((25 + j : Nat) : Int) - 24 := by
    push_cast
    omega
  rw [round_of_bitLen neg N _ (25 + j) hbl (by omega) hu]
  have e1 : 25 + j - 24 = j + 1 := by omega
  have e2 : 25 + j - 25 = j := by omega
  have e3 : e - ((j : Int) + 1) + ((25 + j : Nat) : Int) - 24 = e := by
    push_cast
    omega
  rw [e1, e2, e3]
  have hmod := Nat.div_add_mod N (2 ^ (j + 1))
  have hpack : pack neg m e = fin neg m e := by
    unfold pack
    rw [if_neg (by omega), if_neg (by omega)]
  by_cases hN : 2 * (m * 2 ^ j) ≤ N
  · have hq : N / 2 ^ (j + 1) = m :=
      Nat.div_eq_of_lt_le (by rw [hmD]; exact hN) (by rw [Nat.add_mul, hmD, hp3]; omega)
    rw [hq, Nat.mul_comm, hmD] at hmod
    rw [if_neg (by omega), hq, hpack]
  · have hm0 : m - 1 + 1 = m := by omega
    have hmD1 : (m - 1) * 2 ^ (j + 1) + 2 * 2 ^ j = 2 * (m * 2 ^ j) := by
      rw [← hp3, ← Nat.succ_mul]
      show (m - 1 + 1) * 2 ^ (j + 1) = _
      rw [hm0, hmD]
    have hq : N / 2 ^ (j + 1) = m - 1 :=
      Nat.div_eq_of_lt_le (by omega) (by rw [hm0, hmD]; omega)
    rw [hq, Nat.mul_comm] at hmod
    rw [if_pos (Or.inl (by omega)), hq, hm0, hpack]

theorem pack_of_lt (neg : Bool) (m : Nat) (e : Int) (hm : m < 2 ^ 24) (he : e ≤ emax) :
    pack neg m e = fin neg m e := by
  unfold pack
  rw [if_neg (by omega), if_neg (by omega)]

theorem pack_two_pow (neg : Bool) (e : Int) (he : e + 1 ≤ emax) :
    pack neg (2 ^ 24) e = fin neg (2 ^ 23) (e + 1) := by
  unfold pack
  rw [if_pos rfl, if_neg (by omega)]

/-- Rounding the square `X` of a full 24-bit significand `m`: the result is a
full significand `M` with exponent raised by `t`, exact or less than `m` away
from `X`. -/
theorem round_sq_aux (m X : Nat) (e : Int) (hm1 : 2 ^ 23 ≤ m)
    (hX1 : 2 ^ 46 ≤ X) (hX2 : X ≤ (2 ^ 24 - 1) * (2 ^ 24 - 1)) (hX3 : m = 2 ^ 23 → X = 2 ^ 46)
    (he1 : -86 ≤ e) (he2 : e ≤ 40) :
    ∃ M t : Nat, round false X (e + e) = fin false M (e + e + (t : Int)) ∧
      2 ^ 23 ≤ M ∧ M < 2 ^ 24 ∧ (t = 23 ∨ t = 24 ∨ t = 25) ∧
      (M * 2 ^ t = X ∨ (2 ^ 23 < m ∧ X < M * 2 ^ t + m ∧ M * 2 ^ t < X + m)) := by
  by_cases hlt : X < 2 ^ 47
  · have hbl : bitLen X = 47 := bitLen_eq X 47 (by norm_num) hX1 hlt
    rw [round_of_bitLen false X (e + e) 47 hbl (by norm_num) (by simp only [emin]; omega)]
    have hu : e + e + ((47 : Nat) : Int) - 24 = e + e + 23 := by omega
    rw [hu]
    norm_num only at hX1 hX2 hX3 hlt hm1 ⊢
    split_ifs with hc
    · by_cases hq : X / 8388608 + 1 = 16777216
      · rw [hq]
        refine ⟨2 ^ 23, 24, ?_, by norm_num, by norm_num, Or.inr (Or.inl rfl), Or.inr ?_⟩
        · have := pack_two_pow false (e + e + 23) (by simp only [emax]; omega)
          norm_num only at this ⊢
          rw [this]
          congr 1
          omega
        · norm_num only
          omega
      · refine ⟨X / 8388608 + 1, 23, ?_, by omega, by omega, Or.inl rfl, Or.inr ?_⟩
        · rw [pack_of_lt _ _ _ (by norm_num only; omega) (by simp only [emax]; omega)]
          rfl
        · norm_num only
          omega
    · refine ⟨X / 8388608, 23, ?_, by omega, by omega, Or.inl rfl, ?_⟩
      · rw [pack_of_lt _ _ _ (by norm_num only; omega) (by simp only [emax]; omega)]
        rfl
      · norm_num only
        omega
  · have hbl : bitLen X = 48 := by
      apply bitLen_eq X 48 (by norm_num)
      · norm_num only at hlt ⊢
        omega
      · norm_num only at hX2 ⊢
        omega
    rw [round_of_bitLen false X (e + e) 48 hbl (by norm_num) (by simp only [emin]; omega)]
    have hu : e + e + ((48 : Nat) : Int) - 24 = e + e + 24 := by omega
    rw [hu]
    norm_num only at hX1 hX2 hX3 hlt hm1 ⊢
    split_ifs with hc
    · refine ⟨X / 16777216 + 1, 24, ?_, by omega, by omega, Or.inr (Or.inl rfl), Or.inr ?_⟩
      · rw [pack_of_lt _ _ _ (by norm_num only; omega) (by simp only [emax]; omega)]
        rfl
      · norm_num only
        omega
    · refine ⟨X / 16777216, 24, ?_, by omega, by omega, Or.inr (Or.inl rfl), Or.inr ?_⟩
      · rw [pack_of_lt _ _ _ (by norm_num only; omega) (by simp only [emax]; omega)]
        rfl
      · norm_num only
        omega

/-- The integer square root with its sticky bit, for a number strictly between
two squares. -/
theorem sticky_sqrt_bounds (A B n : Nat) (h1 : A * A < n) (h2 : n < B * B) :
    2 * A < 2 * isqrt n + (if isqrt n * isqrt n = n then 0 else 1) ∧
    2 * isqrt n + (if isqrt n * isqrt n = n then 0 else 1) < 2 * B := by
  rw [isqrt_eq_sqrt]
  have hA : A ≤ Nat.sqrt n := Nat.le_sqrt.mpr (le_of_lt h1)
  have hB : Nat.sqrt n < B := Nat.sqrt_lt.mpr h2
  split_ifs with hr
  · have hne : A ≠ Nat.sqrt n := by
      intro h
      rw [← h] at hr
      omega
    omega
  · omega

/-- The square root, with sticky bit, of `V * (2T)^2` when `V` is the square of
the full significand `m` or less than `m` away from it: it lies strictly
between `(m - 1/2) * 4T` and `(m + 1/2) * 4T`. -/
theorem sqrt_sticky_near (m V T : Nat) (hT : 0 < T) (hm1 : 2 ^ 23 ≤ m)
    (hV : V = m * m ∨ (2 ^ 23 < m ∧ m * m < V + m ∧ V < m * m + m)) :
    2 ^ 24 * (2 * T)
        ≤ 2 * isqrt (V * (4 * (T * T)))
          + (if isqrt (V * (4 * (T * T))) * isqrt (V * (4 * (T * T))) = V * (4 * (T * T))
              then 0 else 1) ∧
    2 * (m * (2 * T))
        < 2 * isqrt (V * (4 * (T * T)))
          + (if isqrt (V * (4 * (T * T))) * isqrt (V * (4 * (T * T))) = V * (4 * (T * T))
              then 0 else 1) + 2 * T ∧
    2 * isqrt (V * (4 * (T * T)))
          + (if isqrt (V * (4 * (T * T))) * isqrt (V * (4 * (T * T))) = V * (4 * (T * T))
              then 0 else 1)
        < 2 * (m * (2 * T)) + 2 * T := by
  rcases hV with hV | ⟨hm, hV1, hV2⟩
  · have hn : V * (4 * (T * T)) = (2 * (m * T)) * (2 * (m * T)) := by
      rw [hV]
      ring
    have hr : isqrt (V * (4 * (T * T))) = 2 * (m * T) := by
      rw [isqrt_eq_sqrt, hn, Nat.sqrt_eq]
    rw [hr, if_pos hn.symm]
    have hP : 2 ^ 23 * T ≤ m * T := Nat.mul_le_mul_right _ hm1
    have e1 : m * (2 * T) = 2 * (m * T) := by ring
    rw [e1]
    norm_num only at hP ⊢
    omega
  · obtain ⟨k, rfl⟩ : ∃ k, m = k + 1 := ⟨m - 1, by omega⟩
    have hk : 2 ^ 23 ≤ k := by omega
    have hTT : 0 < T * T := Nat.mul_pos hT hT
    have hA : ((2 * k + 1) * T) * ((2 * k + 1) * T) < V * (4 * (T * T)) := by
      have h : (2 * k + 1) * (2 * k + 1) < 4 * V := by nlinarith
      have h2 := Nat.mul_lt_mul_of_pos_right h hTT
      calc ((2 * k + 1) * T) * ((2 * k + 1) * T)
          = (2 * k + 1) * (2 * k + 1) * (T * T) := by ring
        _ < 4 * V * (T * T) := h2
        _ = V * (4 * (T * T)) := by ring
    have hB : V * (4 * (T * T)) < ((2 * k + 3) * T) * ((2 * k + 3) * T) := by
      have h : 4 * V < (2 * k + 3) * (2 * k + 3) := by nlinarith
      have h2 := Nat.mul_lt_mul_of_pos_right h hTT
      calc V * (4 * (T * T)) = 4 * V * (T * T) := by ring
        _ < (2 * k + 3) * (2 * k + 3) * (T * T) := h2
        _ = ((2 * k + 3) * T) * ((2 * k + 3) * T) := by ring
    obtain ⟨b1, b2⟩ := sticky_sqrt_bounds _ _ _ hA hB
    have hP : 2 ^ 23 * T ≤ k * T := Nat.mul_le_mul_right _ hk
    have e1 : (k + 1) * (2 * T) = 2 * (k * T) + 2 * T := by ring
    have e2 : 2 * ((2 * k + 1) * T) = 4 * (k * T) + 2 * T := by ring
    have e3 : 2 * ((2 * k + 3) * T) = 4 * (k * T) + 6 * T := by ring
    rw [e2] at b1
    rw [e3] at b2
    rw [e1]
    norm_num only at hP ⊢
    omega

/-- The square root of the rounded square of a full significand `m` is `m`
again. -/
theorem sqrt_of_round_sq (m M t : Nat) (e : Int) (hm1 : 2 ^ 23 ≤ m) (hm2 : m < 2 ^ 24)
    (hM1 : 2 ^ 23 ≤ M) (ht : t = 23 ∨ t = 24 ∨ t = 25)
    (hV : M * 2 ^ t = m * m ∨ (2 ^ 23 < m ∧ m * m < M * 2 ^ t + m ∧ M * 2 ^ t < m * m + m))
    (he1 : emin ≤ e) (he2 : e ≤ emax) :
    sqrt (fin false M (e + e + (t : Int))) = fin false m e := by
  have hM0 : M ≠ 0 := by
    norm_num only at hM1
    omega
  simp only [sqrt, if_neg hM0, Bool.false_eq_true, if_false]
  rcases ht with rfl | rfl | rfl
  · have hk : ¬ ((e + e + ((23 : Nat) : Int)) % 2 = 0) := by omega
    have hx : (e + e + ((23 : Nat) : Int) - ((53 : Nat) : Int)) / 2 - 1
        = e - (((15 : Nat) : Int) + 1) := by omega
    have hn : M * 2 ^ 53 = M * 2 ^ 23 * (4 * (2 ^ 14 * 2 ^ 14)) := by ring
    simp only [if_neg hk]
    rw [hx, hn]
    have hb := sqrt_sticky_near m (M * 2 ^ 23) (2 ^ 14) (by norm_num) hm1
      (by rcases hV with h | h; exact Or.inl h; exact Or.inr h)
    refine round_near false m _ 15 e hm1 hm2 he1 he2 ?_ ?_ ?_
    · exact hb.1
    · exact hb.2.1
    · exact hb.2.2
  · have hk : (e + e + ((24 : Nat) : Int)) % 2 = 0 := by omega
    have hx : (e + e + ((24 : Nat) : Int) - ((52 : Nat) : Int)) / 2 - 1
        = e - (((14 : Nat) : Int) + 1) := by omega
    have hn : M * 2 ^ 52 = M * 2 ^ 24 * (4 * (2 ^ 13 * 2 ^ 13)) := by ring
    simp only [if_pos hk]
    rw [hx, hn]
    have hb := sqrt_sticky_near m (M * 2 ^ 24) (2 ^ 13) (by norm_num) hm1
      (by rcases hV with h | h; exact Or.inl h; exact Or.inr h)
    refine round_near false m _ 14 e hm1 hm2 he1 he2 ?_ ?_ ?_
    · exact hb.1
    · exact hb.2.1
    · exact hb.2.2
  · have hk : ¬ ((e + e + ((25 : Nat) : Int)) % 2 = 0) := by omega
    have hx : (e + e + ((25 : Nat) : Int) - ((53 : Nat) : Int)) / 2 - 1
        = e - (((14 : Nat) : Int) + 1) := by omega
    have hn : M * 2 ^ 53 = M * 2 ^ 25 * (4 * (2 ^ 13 * 2 ^ 13)) := by ring
    simp only [if_neg hk]
    rw [hx, hn]
    have hb := sqrt_sticky_near m (M * 2 ^ 25) (2 ^ 13) (by norm_num) hm1
      (by rcases hV with h | h; exact Or.inl h; exact Or.inr h)
    refine round_near false m _ 14 e hm1 hm2 he1 he2 ?_ ?_ ?_
    · exact hb.1
    · exact hb.2.1
    · exact hb.2.2

/-- In binary32, for a normal `a` with `2^-63 ≤ |a| < 2^64`, the square root of
the rounded square `a * a` is exactly `|a|`. -/
theorem sqrt_mul_self (s : Bool) (m : Nat) (e : Int) (hm1 : 2 ^ 23 ≤ m) (hm2 : m < 2 ^ 24)
    (he1 : -86 ≤ e) (he2 : e ≤ 40) :
    ∃ M E, fin s m e * fin s m e = fin false M E ∧ 2 ^ 23 ≤ M ∧ M < 2 ^ 24 ∧
      emin ≤ E ∧ E ≤ emax ∧ sqrt (fin false M E) = fin false m e := by
  have hX1 : 2 ^ 46 ≤ m * m := by
    have := Nat.mul_le_mul hm1 hm1
    norm_num only at this ⊢
    exact this
  have hX2 : m * m ≤ (2 ^ 24 - 1) * (2 ^ 24 - 1) :=
    Nat.mul_le_mul (by omega) (by omega)
  have hX3 : m = 2 ^ 23 → m * m = 2 ^ 46 := by
    intro h
    rw [h]
    norm_num
  obtain ⟨M, t, hr, hM1, hM2, ht, hV⟩ := round_sq_aux m (m * m) e hm1 hX1 hX2 hX3 he1 he2
  refine ⟨M, e + e + (t : Int), ?_, hM1, hM2, ?_, ?_, ?_⟩
  · rw [mul_def]
    simp only [mul, Bool.xor_self]
    exact hr
  · simp only [emin]
    omega
  · simp only [emax]
    rcases ht with rfl | rfl | rfl <;> omega
  · exact sqrt_of_round_sq m M t e hm1 hm2 hM1 ht hV (by simp only [emin]; omega)
      (by simp only [emax]; omega)

/-- Rounding is the identity on a normal number written with extra trailing
zeros. -/
theorem round_normal_shift (neg : Bool) (M d : Nat) (E : Int) (hM1 : 2 ^ 23 ≤ M)
    (hM2 : M < 2 ^ 24) (hE1 : emin ≤ E) (hE2 : E ≤ emax) :
    round neg (M * 2 ^ d) (E - (d : Int)) = fin neg M E := by
  have hbl : bitLen (M * 2 ^ d) = 24 + d := by
    apply bitLen_eq _ _ (by omega)
    · have h : 24 + d - 1 = 23 + d := by omega
      rw [h, pow_add]
      exact Nat.mul_le_mul_right _ hM1
    · rw [pow_add]
      exact Nat.mul_lt_mul_of_pos_right hM2 (by positivity)
  by_cases hd : d = 0
  · subst hd
    have h0 : M ≠ 0 := by
      norm_num only at hM1
      omega
    have hb : bitLen M = 24 := by simpa using hbl
    unfold round
    simp only [pow_zero, mul_one, Nat.cast_zero, sub_zero, if_neg h0, hb]
    have hu : max (E + ((24 : Nat) : Int) - 24) emin = E := by
      simp only [emin] at *
      omega
    rw [hu, if_pos le_rfl]
    simp only [sub_self, Int.toNat_zero, pow_zero, mul_one]
    exact pack_of_lt _ _ _ hM2 hE2
  · rw [round_of_bitLen neg _ _ (24 + d) hbl (by omega) (by push_cast; omega)]
    have e1 : 24 + d - 24 = d := by omega
    have e2 : E - (d : Int) + ((24 + d : Nat) : Int) - 24 = E := by
      push_cast
      omega
    have hpos : 0 < 2 ^ (24 + d - 25) := by positivity
    rw [e1, e2, Nat.mul_mod_left, Nat.mul_div_cancel _ (by positivity : 0 < 2 ^ d),
      if_neg (by omega)]
    exact pack_of_lt _ _ _ hM2 hE2

/-- Adding `+0` on the right of a positive normal number returns it. -/
theorem add_zero_normal (M : Nat) (E : Int) (hM1 : 2 ^ 23 ≤ M) (hM2 : M < 2 ^ 24)
    (hE1 : emin ≤ E) (hE2 : E ≤ emax) : fin false M E + zero false = fin false M E := by
  rw [add_def]
  have hmin : min E emin = emin := min_eq_right hE1
  have hd : E - (((E - emin).toNat : Nat) : Int) = emin := by omega
  have hpos : 0 < M * 2 ^ (E - emin).toNat := Nat.mul_pos (by omega) (by positivity)
  have hc : ((M * 2 ^ (E - emin).toNat : Nat) : Int) ≠ 0 := by omega
  have hlt : ¬ ((M * 2 ^ (E - emin).toNat : Nat) : Int) < 0 := by omega
  have hr := round_normal_shift false M (E - emin).toNat E hM1 hM2 hE1 hE2
  rw [hd] at hr
  simp only [add, zero, hmin, Bool.false_eq_true, if_false, one_mul, zero_mul, Nat.cast_zero,
    add_zero, if_neg hc, decide_eq_false hlt, Int.natAbs_ofNat]
  exact hr

/-- Adding `+0` on the left of a positive normal number returns it. -/
theorem zero_add_normal (M : Nat) (E : Int) (hM1 : 2 ^ 23 ≤ M) (hM2 : M < 2 ^ 24)
    (hE1 : emin ≤ E) (hE2 : E ≤ emax) : zero false + fin false M E = fin false M E := by
  rw [add_def]
  have hmin : min emin E = emin := min_eq_left hE1
  have hd : E - (((E - emin).toNat : Nat) : Int) = emin := by omega
  have hpos : 0 < M * 2 ^ (E - emin).toNat := Nat.mul_pos (by omega) (by positivity)
  have hc : ((M * 2 ^ (E - emin).toNat : Nat) : Int) ≠ 0 := by omega
  have hlt : ¬ ((M * 2 ^ (E - emin).toNat : Nat) : Int) < 0 := by omega
  have hr := round_normal_shift false M (E - emin).toNat E hM1 hM2 hE1 hE2
  rw [hd] at hr
  simp only [add, zero, hmin, Bool.false_eq_true, if_false, one_mul, zero_mul, Nat.cast_zero,
    zero_add, if_neg hc, decide_eq_false hlt, Int.natAbs_ofNat]
  exact hr

/-- A zero divided by a non-zero finite number is the zero of the combined
sign. -/
theorem zero_div_fin (t : Bool) (m : Nat) (e : Int) (hm : m ≠ 0) :
    zero t / fin false m e = zero t := by
  rw [div_def]
  simp only [div, zero, if_neg hm, roundQuot, Nat.zero_mul, Nat.zero_div, Nat.zero_mod,
    Nat.mul_zero, if_true, Nat.add_zero, round_zero, Bool.xor_false]

/-- A normal number divided by its absolute value is `1` or `-1`. -/
theorem div_abs_normal (s : Bool) (m : Nat) (e : Int) (hm1 : 2 ^ 23 ≤ m) (hm2 : m < 2 ^ 24) :
    fin s m e / fin false m e = fin s (2 ^ 23) (-23) := by
  have hm0 : m ≠ 0 := by
    norm_num only at hm1
    omega
  have hbl : bitLen m = 24 := bitLen_eq m 24 (by norm_num) hm1 hm2
  rw [div_def]
  simp only [div, if_neg hm0, roundQuot, hbl, Bool.xor_false, sub_self,
    Nat.mul_div_cancel_left _ (Nat.pos_of_ne_zero hm0), Nat.mul_mod_right, if_true]
  cases s <;> decide

/-! ### Rounding error of the operations -/

/-- Rounding an integer to a multiple of `2^s`, to nearest with ties to even,
moves it by at most half of `2^s`. -/
theorem round_err_int (m s : Nat) (hs : 0 < s) :
    (if m % 2 ^ s > 2 ^ (s - 1) ∨ (m % 2 ^ s = 2 ^ (s - 1) ∧ m / 2 ^ s % 2 = 1)
        then m / 2 ^ s + 1 else m / 2 ^ s) * 2 ^ s ≤ m + 2 ^ (s - 1) ∧
    m ≤ (if m % 2 ^ s > 2 ^ (s - 1) ∨ (m % 2 ^ s = 2 ^ (s - 1) ∧ m / 2 ^ s % 2 = 1)
        then m / 2 ^ s + 1 else m / 2 ^ s) * 2 ^ s + 2 ^ (s - 1) := by
  have hD : 2 ^ s = 2 * 2 ^ (s - 1) := by
    rw [← pow_succ']
    congr 1
    omega
  have hH : 0 < 2 ^ (s - 1) := by positivity
  have h1 := Nat.div_add_mod m (2 ^ s)
  have h2 := Nat.mod_lt m (show 0 < 2 ^ s by positivity)
  have e1 : (m / 2 ^ s + 1) * 2 ^ s = 2 ^ s * (m / 2 ^ s) + 2 ^ s := by ring
  have e2 : m / 2 ^ s * 2 ^ s = 2 ^ s * (m / 2 ^ s) := by ring
  split_ifs with hc
  · rw [e1]
    generalize 2 ^ s * (m / 2 ^ s) = P at *
    generalize m % 2 ^ s = R at *
    generalize 2 ^ s = D at *
    generalize 2 ^ (s - 1) = H at *
    omega
  · rw [e2]
    have hc' : ¬ (m % 2 ^ s > 2 ^ (s - 1)) := fun h => hc (Or.inl h)
    generalize 2 ^ s * (m / 2 ^ s) = P at *
    generalize m % 2 ^ s = R at *
    generalize 2 ^ s = D at *
    generalize 2 ^ (s - 1) = H at *
    omega

/-- The value of a packed significand in `[2^23, 2^24]`. -/
theorem pack_rel (neg : Bool) (Q : Nat) (u : Int) (hQ1 : 2 ^ 23 ≤ Q) (hQ2 : Q ≤ 2 ^ 24)
    (hu : u + 1 ≤ emax) :
    ∃ M E, pack neg Q u = fin neg M E ∧ 2 ^ 23 ≤ M ∧ M < 2 ^ 24 ∧ u ≤ E ∧ E ≤ u + 1 ∧
      (M : ℝ) * (2 : ℝ) ^ E = (Q : ℝ) * (2 : ℝ) ^ u := by
  by_cases hq : Q = 2 ^ 24
  · subst hq
    refine ⟨2 ^ 23, u + 1, pack_two_pow neg u hu, le_rfl, by norm_num, by omega, le_rfl, ?_⟩
    rw [zpow_add₀ (by norm_num : (2 : ℝ) ≠ 0)]
    push_cast
    ring
  · refine ⟨Q, u, pack_of_lt neg Q u (by omega) (by omega), hQ1, by omega, le_rfl, by omega, rfl⟩

/-- From an absolute error of half a unit to a relative error of `2^-24`. -/
theorem rel_of_int (Q m s : Nat) (e : Int) (h1 : Q * 2 ^ s ≤ m + 2 ^ (s - 1))
    (h2 : m ≤ Q * 2 ^ s + 2 ^ (s - 1)) (hs : 0 < s) (hm : 2 ^ (s + 23) ≤ m) :
    |(Q : ℝ) * (2 : ℝ) ^ (e + (s : Int)) - (m : ℝ) * (2 : ℝ) ^ e|
      ≤ (m : ℝ) * (2 : ℝ) ^ e / 2 ^ 24 := by
  have h2e : (0 : ℝ) < (2 : ℝ) ^ e := zpow_pos (by norm_num) e
  have hH : 2 ^ (s - 1) * 2 ^ 24 = 2 ^ (s + 23) := by
    rw [← pow_add]
    congr 1
    omega
  have h1r : (Q : ℝ) * 2 ^ s ≤ (m : ℝ) + 2 ^ (s - 1) := by exact_mod_cast h1
  have h2r : (m : ℝ) ≤ (Q : ℝ) * 2 ^ s + 2 ^ (s - 1) := by exact_mod_cast h2
  have h3r : (2 : ℝ) ^ (s - 1) * 2 ^ 24 ≤ (m : ℝ) := by
    have : 2 ^ (s - 1) * 2 ^ 24 ≤ m := by rw [hH]; exact hm
    exact_mod_cast this
  rw [zpow_add₀ (by norm_num : (2 : ℝ) ≠ 0), zpow_natCast]
  have hfac : (Q : ℝ) * ((2 : ℝ) ^ e * 2 ^ s) - (m : ℝ) * (2 : ℝ) ^ e
      = ((Q : ℝ) * 2 ^ s - m) * (2 : ℝ) ^ e := by ring
  have hrhs : (m : ℝ) * (2 : ℝ) ^ e / 2 ^ 24 = (m : ℝ) / 2 ^ 24 * (2 : ℝ) ^ e := by ring
  rw [hfac, abs_mul, abs_of_pos h2e, hrhs]
  apply mul_le_mul_of_nonneg_right _ (le_of_lt h2e)
  rw [abs_le]
  have h4 : (2 : ℝ) ^ (s - 1) ≤ (m : ℝ) / 2 ^ 24 := by
    rw [le_div_iff₀ (by positivity)]
    exact h3r
  constructor <;> linarith

/-- Rounding above the subnormal range and below overflow: the result is a
normal number whose value is within a relative `2^-24` of the exact one. -/
theorem round_rel (neg : Bool) (m : Nat) (e : Int) (hm : m ≠ 0)
    (hlo : emin ≤ e + (bitLen m : Int) - 24) (hhi : e + (bitLen m : Int) ≤ 127) :
    ∃ M E, round neg m e = fin neg M E ∧ 2 ^ 23 ≤ M ∧ M < 2 ^ 24 ∧
      e + (bitLen m : Int) - 24 ≤ E ∧ E ≤ e + (bitLen m : Int) - 23 ∧
      |(M : ℝ) * (2 : ℝ) ^ E - (m : ℝ) * (2 : ℝ) ^ e| ≤ (m : ℝ) * (2 : ℝ) ^ e / 2 ^ 24 := by
  have hL1 := lt_two_pow_bitLen m
  have hL2 := two_pow_bitLen_le m hm
  have hL0 := bitLen_pos m hm
  have h2e : (0 : ℝ) < (2 : ℝ) ^ e := zpow_pos (by norm_num) e
  have hnn : (0 : ℝ) ≤ (m : ℝ) * (2 : ℝ) ^ e / 2 ^ 24 := by positivity
  generalize hL : bitLen m = L at *
  by_cases h24 : 24 < L
  · rw [round_of_bitLen neg m e L hL h24 hlo]
    obtain ⟨i1, i2⟩ := round_err_int m (L - 24) (by omega)
    have e25 : L - 24 - 1 = L - 25 := by omega
    rw [e25] at i1 i2
    have hq1 : 2 ^ 23 ≤ m / 2 ^ (L - 24) := le_div_pow m L (L - 24) hL2 (by omega)
    have hq2 : m / 2 ^ (L - 24) < 2 ^ 24 := div_pow_lt m L (L - 24) hL1 (by omega)
    rw [← apply_ite (fun x => pack neg x (e + (L : Int) - 24))]
    generalize hQ : (if m % 2 ^ (L - 24) > 2 ^ (L - 25)
        ∨ (m % 2 ^ (L - 24) = 2 ^ (L - 25) ∧ m / 2 ^ (L - 24) % 2 = 1)
      then m / 2 ^ (L - 24) + 1 else m / 2 ^ (L - 24)) = Q at i1 i2 ⊢
    have hQ1 : 2 ^ 23 ≤ Q := by
      rw [← hQ]
      split_ifs <;> omega
    have hQ2 : Q ≤ 2 ^ 24 := by
      rw [← hQ]
      split_ifs <;> omega
    obtain ⟨M, E, hp, hM1, hM2, hE1, hE2, hval⟩ :=
      pack_rel neg Q (e + (L : Int) - 24) hQ1 hQ2 (by simp only [emax]; omega)
    refine ⟨M, E, hp, hM1, hM2, hE1, by omega, ?_⟩
    have hm23 : 2 ^ (L - 24 + 23) ≤ m := by
      have : L - 24 + 23 = L - 1 := by omega
      rw [this]
      exact hL2
    have hr := rel_of_int Q m (L - 24) e (by rw [e25]; exact i1) (by rw [e25]; exact i2)
      (by omega) hm23
    have hex : e + ((L - 24 : Nat) : Int) = e + (L : Int) - 24 := by omega
    rw [hex] at hr
    rw [hval]
    exact hr
  · have hmax : max (e + (L : Int) - 24) emin = e + (L : Int) - 24 := max_eq_left hlo
    have hle : e + (L : Int) - 24 ≤ e := by omega
    have hd : (e - (e + (L : Int) - 24)).toNat = 24 - L := by omega
    have hb1 : m * 2 ^ (24 - L) < 2 ^ 24 := mul_pow_lt m L (24 - L) hL1 (by omega)
    have hb2 : 2 ^ 23 ≤ m * 2 ^ (24 - L) := le_mul_pow m L (24 - L) hL2 (by omega)
    refine ⟨m * 2 ^ (24 - L), e + (L : Int) - 24, ?_, hb2, hb1, le_rfl, by omega, ?_⟩
    · unfold round
      simp only []
      rw [if_neg hm, hL, hmax, if_pos hle, hd]
      exact pack_of_lt _ _ _ hb1 (by simp only [emax]; omega)
    · have hval : ((m * 2 ^ (24 - L) : Nat) : ℝ) * (2 : ℝ) ^ (e + (L : Int) - 24)
          = (m : ℝ) * (2 : ℝ) ^ e := by
        have hexp : e = ((24 - L : Nat) : Int) + (e + (L : Int) - 24) := by omega
        conv_rhs => rw [hexp, zpow_add₀ (by norm_num : (2 : ℝ) ≠ 0), zpow_natCast]
        push_cast
        ring
      rw [hval, sub_self, abs_zero]
      exact hnn

theorem toReal_zero (s : Bool) : toReal (zero s) = 0 := by
  simp [toReal, zero]

theorem toReal_fin_false (M : Nat) (E : Int) :
    toReal (fin false M E) = (M : ℝ) * (2 : ℝ) ^ E := by
  simp [toReal]

theorem toReal_mul_self (s : Bool) (m : Nat) (e : Int) :
    toReal (fin s m e) * toReal (fin s m e) = ((m * m : Nat) : ℝ) * (2 : ℝ) ^ (e + e) := by
  rw [zpow_add₀ (by norm_num : (2 : ℝ) ≠ 0)]
  cases s <;> simp [toReal] <;> ring

theorem le_bitLen (n k : Nat) (h : 2 ^ k ≤ n) : k + 1 ≤ bitLen n := by
  have h1 := lt_two_pow_bitLen n
  by_contra hc
  have h2 : bitLen n ≤ k := by omega
  have h3 : 2 ^ bitLen n ≤ 2 ^ k := Nat.pow_le_pow_right (by norm_num) h2
  omega

/-- The square of a component in range: a `+0` or a normal number, within a
relative `2^-24` of the exact square. -/
theorem sq_rel (x : F32) (hx : InRange x) :
    NormalOrZero 99 (x * x) ∧
    |toReal (x * x) - toReal x * toReal x| ≤ toReal x * toReal x / 2 ^ 24 := by
  cases x with
  | nan => exact absurd hx id
  | inf s => exact absurd hx id
  | fin s m e =>
    rcases hx with h0 | ⟨hm1, hm2, he1, he2⟩
    · subst h0
      have hsq : fin s 0 e * fin s 0 e = zero false := mul_self_of_isZero _ rfl
      rw [hsq, toReal_zero]
      refine ⟨Or.inl rfl, ?_⟩
      simp [toReal]
    · have hmm0 : m * m ≠ 0 := by
        have : 0 < m := by
          norm_num only at hm1
          omega
        exact Nat.mul_ne_zero (by omega) (by omega)
      have hX1 : 2 ^ 46 ≤ m * m := by
        have := Nat.mul_le_mul hm1 hm1
        norm_num only at this ⊢
        exact this
      have hX2 : m * m < 2 ^ 48 := by
        have := Nat.mul_lt_mul'' hm2 hm2
        norm_num only at this ⊢
        exact this
      have hb1 := le_bitLen _ _ hX1
      have hb2 := bitLen_le_of_lt _ _ hX2
      obtain ⟨M, E, hr, hM1, hM2, hE1, hE2, herr⟩ := round_rel false (m * m) (e + e) hmm0
        (by simp only [emin]; omega) (by omega)
      have hsq : fin s m e * fin s m e = fin false M E := by
        rw [mul_def]
        simp only [mul, Bool.xor_self]
        exact hr
      rw [hsq, toReal_fin_false, toReal_mul_self]
      exact ⟨Or.inr ⟨M, E, rfl, hM1, hM2, by simp only [emin]; omega, by omega⟩, herr⟩

/-- The sum of two non-negative finite data is the rounding of the exact sum
taken at the smaller exponent. -/
theorem add_fin_nonneg (M1 M2 : Nat) (E1 E2 : Int)
    (h : M1 * 2 ^ (E1 - min E1 E2).toNat + M2 * 2 ^ (E2 - min E1 E2).toNat ≠ 0) :
    fin false M1 E1 + fin false M2 E2
      = round false (M1 * 2 ^ (E1 - min E1 E2).toNat + M2 * 2 ^ (E2 - min E1 E2).toNat)
          (min E1 E2) := by
  rw [add_def]
  have hc : ((M1 * 2 ^ (E1 - min E1 E2).toNat : Nat) : Int)
      + ((M2 * 2 ^ (E2 - min E1 E2).toNat : Nat) : Int) ≠ 0 := by
    intro hc
    apply h
    exact_mod_cast hc
  have hlt : ¬ (((M1 * 2 ^ (E1 - min E1 E2).toNat : Nat) : Int)
      + ((M2 * 2 ^ (E2 - min E1 E2).toNat : Nat) : Int) < 0) := by
    have h1 := Int.ofNat_nonneg (M1 * 2 ^ (E1 - min E1 E2).toNat)
    have h2 := Int.ofNat_nonneg (M2 * 2 ^ (E2 - min E1 E2).toNat)
    omega
  have hn : (((M1 * 2 ^ (E1 - min E1 E2).toNat : Nat) : Int)
      + ((M2 * 2 ^ (E2 - min E1 E2).toNat : Nat) : Int)).natAbs
      = M1 * 2 ^ (E1 - min E1 E2).toNat + M2 * 2 ^ (E2 - min E1 E2).toNat := by
    rw [← Nat.cast_add]
    exact Int.natAbs_ofNat _
  simp only [add, Bool.false_eq_true, if_false, one_mul, if_neg hc, decide_eq_false hlt, hn]

theorem bitLen_add_shift (M1 M2 D : Nat) (h1 : M1 < 2 ^ 24) (h2 : 2 ^ 23 ≤ M2)
    (h2' : M2 < 2 ^ 24) :
    24 + D ≤ bitLen (M1 + M2 * 2 ^ D) ∧ bitLen (M1 + M2 * 2 ^ D) ≤ 25 + D := by
  have hD : 0 < 2 ^ D := by positivity
  have hlo : 2 ^ (23 + D) ≤ M1 + M2 * 2 ^ D := by
    rw [pow_add]
    have := Nat.mul_le_mul_right (2 ^ D) h2
    omega
  have hhi : M1 + M2 * 2 ^ D < 2 ^ (25 + D) := by
    rw [pow_add]
    have ha := Nat.mul_lt_mul_of_pos_right h2' hD
    have hb : 2 ^ 24 ≤ 2 ^ 24 * 2 ^ D := Nat.le_mul_of_pos_right _ hD
    have hc : 2 ^ 25 * 2 ^ D = 2 ^ 24 * 2 ^ D + 2 ^ 24 * 2 ^ D := by ring
    omega
  have := le_bitLen _ _ hlo
  exact ⟨by omega, bitLen_le_of_lt _ _ hhi⟩

/-- The sum of two data that are `+0` or positive normal numbers: again such a
datum, within a relative `2^-24` of the exact sum. -/
theorem add_rel (K : Int) (a b : F32) (ha : NormalOrZero K a) (hb : NormalOrZero K b)
    (hK : K ≤ 102) :
    NormalOrZero (K + 2) (a + b) ∧
    |toReal (a + b) - (toReal a + toReal b)| ≤ (toReal a + toReal b) / 2 ^ 24 := by
  rcases ha with rfl | ⟨M1, E1, rfl, hM1, hM1', hE1, hE1'⟩
  · rcases hb with rfl | ⟨M2, E2, rfl, hM2, hM2', hE2, hE2'⟩
    · rw [zero_add_zero, toReal_zero]
      exact ⟨Or.inl rfl, by simp⟩
    · rw [zero_add_normal M2 E2 hM2 hM2' hE2 (by simp only [emax]; omega), toReal_zero,
        toReal_fin_false]
      refine ⟨Or.inr ⟨M2, E2, rfl, hM2, hM2', hE2, by omega⟩, ?_⟩
      have : (0 : ℝ) ≤ (M2 : ℝ) * (2 : ℝ) ^ E2 := by positivity
      simp only [zero_add, sub_self, abs_zero]
      positivity
  · rcases hb with rfl | ⟨M2, E2, rfl, hM2, hM2', hE2, hE2'⟩
    · rw [add_zero_normal M1 E1 hM1 hM1' hE1 (by simp only [emax]; omega), toReal_zero,
        toReal_fin_false]
      refine ⟨Or.inr ⟨M1, E1, rfl, hM1, hM1', hE1, by omega⟩, ?_⟩
      simp only [add_zero, sub_self, abs_zero]
      positivity
    · have hpos1 : 0 < M1 := by
        norm_num only at hM1
        omega
      have hne : M1 * 2 ^ (E1 - min E1 E2).toNat + M2 * 2 ^ (E2 - min E1 E2).toNat ≠ 0 := by
        have : 0 < M1 * 2 ^ (E1 - min E1 E2).toNat := Nat.mul_pos hpos1 (by positivity)
        omega
      rw [add_fin_nonneg M1 M2 E1 E2 hne, toReal_fin_false, toReal_fin_false]
      by_cases hE : E1 ≤ E2
      · have hmin : min E1 E2 = E1 := min_eq_left hE
        rw [hmin] at hne ⊢
        have hd1 : (E1 - E1).toNat = 0 := by omega
        rw [hd1, pow_zero, mul_one] at hne ⊢
        obtain ⟨b1, b2⟩ := bitLen_add_shift M1 M2 (E2 - E1).toNat hM1' hM2 hM2'
        obtain ⟨M, E, hr, hM, hM', hEl, hEh, herr⟩ := round_rel false _ E1 hne
          (by omega) (by omega)
        rw [hr, toReal_fin_false]
        refine ⟨Or.inr ⟨M, E, rfl, hM, hM', by omega, by omega⟩, ?_⟩
        have hval : ((M1 + M2 * 2 ^ (E2 - E1).toNat : Nat) : ℝ) * (2 : ℝ) ^ E1
            = (M1 : ℝ) * (2 : ℝ) ^ E1 + (M2 : ℝ) * (2 : ℝ) ^ E2 := by
          have hexp : E2 = (((E2 - E1).toNat : Nat) : Int) + E1 := by omega
          conv_rhs => rw [hexp, zpow_add₀ (by norm_num : (2 : ℝ) ≠ 0), zpow_natCast]
          push_cast
          ring
        rw [hval] at herr
        exact herr
      · have hmin : min E1 E2 = E2 := min_eq_right (by omega)
        rw [hmin] at hne ⊢
        have hd2 : (E2 - E2).toNat = 0 := by omega
        rw [hd2, pow_zero, mul_one, Nat.add_comm] at hne ⊢
        obtain ⟨b1, b2⟩ := bitLen_add_shift M2 M1 (E1 - E2).toNat hM2' hM1 hM1'
        obtain ⟨M, E, hr, hM, hM', hEl, hEh, herr⟩ := round_rel false _ E2 hne
          (by omega) (by omega)
        rw [hr, toReal_fin_false]
        refine ⟨Or.inr ⟨M, E, rfl, hM, hM', by omega, by omega⟩, ?_⟩
        have hval : ((M2 + M1 * 2 ^ (E1 - E2).toNat : Nat) : ℝ) * (2 : ℝ) ^ E2
            = (M1 : ℝ) * (2 : ℝ) ^ E1 + (M2 : ℝ) * (2 : ℝ) ^ E2 := by
          have hexp : E1 = (((E1 - E2).toNat : Nat) : Int) + E2 := by omega
          conv_rhs => rw [hexp, zpow_add₀ (by norm_num : (2 : ℝ) ≠ 0), zpow_natCast]
          push_cast
          ring
        rw [hval] at herr
        exact herr

/-- Rounding the integer square root with its sticky bit is rounding the real
square root: the result is within half of `2^s` of `2 * √n`. -/
theorem sticky_round_err (n r N s : Nat) (hs : 2 ≤ s) (hr1 : r * r ≤ n)
    (hr2 : n < (r + 1) * (r + 1)) (hN : N = 2 * r + (if r * r = n then 0 else 1)) :
    |(((if N % 2 ^ s > 2 ^ (s - 1) ∨ (N % 2 ^ s = 2 ^ (s - 1) ∧ N / 2 ^ s % 2 = 1)
        then N / 2 ^ s + 1 else N / 2 ^ s : Nat) : ℝ)) * 2 ^ s - 2 * Real.sqrt n|
      ≤ 2 ^ (s - 1) := by
  obtain ⟨i1, i2⟩ := round_err_int N s (by omega)
  generalize (if N % 2 ^ s > 2 ^ (s - 1) ∨ (N % 2 ^ s = 2 ^ (s - 1) ∧ N / 2 ^ s % 2 = 1)
      then N / 2 ^ s + 1 else N / 2 ^ s) = Q at i1 i2 ⊢
  have hD : 2 ^ s = 2 * 2 ^ (s - 1) := by
    rw [← pow_succ']
    congr 1
    omega
  have hH : 2 ^ (s - 1) = 2 * 2 ^ (s - 2) := by
    rw [← pow_succ']
    congr 1
    omega
  have hQD : Q * 2 ^ s = 2 * (Q * 2 ^ (s - 1)) := by
    rw [hD]
    ring
  by_cases hsq : r * r = n
  · rw [if_pos hsq] at hN
    have hroot : Real.sqrt n = r := by
      rw [← hsq]
      push_cast
      exact Real.sqrt_mul_self (Nat.cast_nonneg r)
    have j1 : (Q : ℝ) * 2 ^ s ≤ (N : ℝ) + 2 ^ (s - 1) := by exact_mod_cast i1
    have j2 : (N : ℝ) ≤ (Q : ℝ) * 2 ^ s + 2 ^ (s - 1) := by exact_mod_cast i2
    have hNr : (N : ℝ) = 2 * (r : ℝ) := by
      rw [hN]
      push_cast
      ring
    rw [hroot, abs_le]
    constructor <;> linarith
  · rw [if_neg hsq] at hN
    have k1 : Q * 2 ^ s + 1 ≤ N + 2 ^ (s - 1) := by
      rw [hQD] at i1 ⊢
      generalize Q * 2 ^ (s - 1) = P at *
      generalize 2 ^ (s - 2) = H2 at *
      omega
    have k2 : N + 1 ≤ Q * 2 ^ s + 2 ^ (s - 1) := by
      rw [hQD] at i2 ⊢
      generalize Q * 2 ^ (s - 1) = P at *
      generalize 2 ^ (s - 2) = H2 at *
      omega
    have j1 : (Q : ℝ) * 2 ^ s + 1 ≤ (N : ℝ) + 2 ^ (s - 1) := by exact_mod_cast k1
    have j2 : (N : ℝ) + 1 ≤ (Q : ℝ) * 2 ^ s + 2 ^ (s - 1) := by exact_mod_cast k2
    have hNr : (N : ℝ) = 2 * (r : ℝ) + 1 := by
      rw [hN]
      push_cast
      ring
    have hlt : r * r < n := lt_of_le_of_ne hr1 hsq
    have l1 : (r : ℝ) < Real.sqrt n := by
      rw [Real.lt_sqrt (Nat.cast_nonneg r), sq]
      exact_mod_cast hlt
    have l2 : Real.sqrt n < (r : ℝ) + 1 := by
      rw [Real.sqrt_lt' (by positivity), sq]
      exact_mod_cast hr2
    rw [abs_le]
    constructor <;> linarith

/-- Rounding the integer square root of `n` with its sticky bit, at unit
exponent `g`, gives a normal number within a relative `2^-24` of
`2 * √n * 2^g`. -/
theorem sqrt_round_rel (n : Nat) (g : Int) (L : Nat)
    (hL : bitLen (2 * isqrt n + (if isqrt n * isqrt n = n then 0 else 1)) = L)
    (h26 : 26 ≤ L) (hlo : emin ≤ g + (L : Int) - 24) (hhi : g + (L : Int) ≤ 127) :
    ∃ M E, round false (2 * isqrt n + (if isqrt n * isqrt n = n then 0 else 1)) g
        = fin false M E ∧ 2 ^ 23 ≤ M ∧ M < 2 ^ 24 ∧
      |(M : ℝ) * (2 : ℝ) ^ E - 2 * Real.sqrt n * (2 : ℝ) ^ g|
        ≤ 2 * Real.sqrt n * (2 : ℝ) ^ g / 2 ^ 24 := by
  have hr1 : isqrt n * isqrt n ≤ n := isqrt_sq_le n
  have hr2 : n < (isqrt n + 1) * (isqrt n + 1) := by
    rw [isqrt_eq_sqrt]
    exact Nat.lt_succ_sqrt n
  generalize isqrt n = r at hL hr1 hr2 ⊢
  generalize hN : 2 * r + (if r * r = n then 0 else 1) = N at hL ⊢
  have hN0 : N ≠ 0 := by
    intro h0
    rw [h0, bitLen_zero] at hL
    omega
  have hL1 := lt_two_pow_bitLen N
  have hL2 := two_pow_bitLen_le N hN0
  rw [hL] at hL1 hL2
  have h2g : (0 : ℝ) < (2 : ℝ) ^ g := zpow_pos (by norm_num) g
  rw [round_of_bitLen false N g L hL (by omega) hlo]
  have serr := sticky_round_err n r N (L - 24) (by omega) hr1 hr2 hN.symm
  have e25 : L - 24 - 1 = L - 25 := by omega
  rw [e25] at serr
  have hq1 : 2 ^ 23 ≤ N / 2 ^ (L - 24) := le_div_pow N L (L - 24) hL2 (by omega)
  have hq2 : N / 2 ^ (L - 24) < 2 ^ 24 := div_pow_lt N L (L - 24) hL1 (by omega)
  rw [← apply_ite (fun x => pack false x (g + (L : Int) - 24))]
  generalize hQ : (if N % 2 ^ (L - 24) > 2 ^ (L - 25)
      ∨ (N % 2 ^ (L - 24) = 2 ^ (L - 25) ∧ N / 2 ^ (L - 24) % 2 = 1)
    then N / 2 ^ (L - 24) + 1 else N / 2 ^ (L - 24)) = Q at serr ⊢
  have hQ1 : 2 ^ 23 ≤ Q := by
    rw [← hQ]
    split_ifs <;> omega
  have hQ2 : Q ≤ 2 ^ 24 := by
    rw [← hQ]
    split_ifs <;> omega
  obtain ⟨M, E, hp, hM1, hM2, -, -, hval⟩ :=
    pack_rel false Q (g + (L : Int) - 24) hQ1 hQ2 (by simp only [emax]; omega)
  refine ⟨M, E, hp, hM1, hM2, ?_⟩
  rw [hval]
  have hex : g + (L : Int) - 24 = g + ((L - 24 : Nat) : Int) := by omega
  rw [hex, zpow_add₀ (by norm_num : (2 : ℝ) ≠ 0), zpow_natCast]
  have hfac : (Q : ℝ) * ((2 : ℝ) ^ g * 2 ^ (L - 24)) - 2 * Real.sqrt n * (2 : ℝ) ^ g
      = ((Q : ℝ) * 2 ^ (L - 24) - 2 * Real.sqrt n) * (2 : ℝ) ^ g := by ring
  have hrhs : 2 * Real.sqrt n * (2 : ℝ) ^ g / 2 ^ 24
      = (2 * Real.sqrt n / 2 ^ 24) * (2 : ℝ) ^ g := by ring
  rw [hfac, abs_mul, abs_of_pos h2g, hrhs]
  apply mul_le_mul_of_nonneg_right _ (le_of_lt h2g)
  refine le_trans serr ?_
  rw [le_div_iff₀ (by positivity)]
  have hP : 2 ^ (L - 25) * 2 ^ 24 = 2 ^ (L - 1) := by
    rw [← pow_add]
    congr 1
    omega
  have hE : 2 ^ (L - 1) = 2 * 2 ^ (L - 2) := by
    rw [← pow_succ']
    congr 1
    omega
  have h2r : 2 ^ (L - 25) * 2 ^ 24 ≤ 2 * r := by
    rw [hP]
    rw [hE] at hL2 ⊢
    generalize 2 ^ (L - 2) = H at *
    split_ifs at hN <;> omega
  have h2r' : (2 : ℝ) ^ (L - 25) * 2 ^ 24 ≤ 2 * (r : ℝ) := by exact_mod_cast h2r
  have hrs : (r : ℝ) ≤ Real.sqrt n := by
    apply Real.le_sqrt_of_sq_le
    rw [sq]
    exact_mod_cast hr1
  linarith

/-- The value of a normal number with exponent `k + 2 * G` has the square root
`2 * √(M * 2^k) * 2^(G - 1)`. -/
theorem real_sqrt_split (M k : Nat) (E G : Int) (hE : E = (k : Int) + 2 * G) :
    Real.sqrt ((M : ℝ) * (2 : ℝ) ^ E)
      = 2 * Real.sqrt ((M * 2 ^ k : Nat) : ℝ) * (2 : ℝ) ^ (G - 1) := by
  have h2 : (2 : ℝ) ≠ 0 := by norm_num
  have hG : (0 : ℝ) ≤ (2 : ℝ) ^ G := le_of_lt (zpow_pos (by norm_num) G)
  have hval : (M : ℝ) * (2 : ℝ) ^ E = ((M * 2 ^ k : Nat) : ℝ) * ((2 : ℝ) ^ G) ^ 2 := by
    rw [hE, zpow_add₀ h2, zpow_natCast, two_mul, zpow_add₀ h2]
    push_cast
    ring
  have hG1 : (2 : ℝ) ^ G = 2 * (2 : ℝ) ^ (G - 1) := by
    rw [zpow_sub_one₀ h2]
    field_simp
  rw [hval, Real.sqrt_mul (Nat.cast_nonneg _), Real.sqrt_sq hG, hG1]
  ring

/-- The square root of a normal number, as the code computes it from the
integer square root of `M * 2^k`. -/
theorem sqrt_normal_rel (M k : Nat) (E G : Int) (hk : k = 52 ∨ k = 53)
    (hE : E = (k : Int) + 2 * G) (hM1 : 2 ^ 23 ≤ M) (hM2 : M < 2 ^ 24)
    (hG1 : -101 ≤ G) (hG2 : G ≤ 26) :
    ∃ M2 E2, round false (2 * isqrt (M * 2 ^ k)
          + (if isqrt (M * 2 ^ k) * isqrt (M * 2 ^ k) = M * 2 ^ k then 0 else 1)) (G - 1)
        = fin false M2 E2 ∧ 2 ^ 23 ≤ M2 ∧ M2 < 2 ^ 24 ∧
      |(M2 : ℝ) * (2 : ℝ) ^ E2 - Real.sqrt ((M : ℝ) * (2 : ℝ) ^ E)|
        ≤ Real.sqrt ((M : ℝ) * (2 : ℝ) ^ E) / 2 ^ 24 := by
  rw [real_sqrt_split M k E G hE]
  have hn1 : 2 ^ 37 * 2 ^ 37 ≤ M * 2 ^ k := by
    rcases hk with rfl | rfl <;> norm_num only at hM1 ⊢ <;> omega
  have hn2 : M * 2 ^ k < 2 ^ (2 * 39) := by
    rcases hk with rfl | rfl <;> norm_num only at hM2 ⊢ <;> omega
  have hr1 : 2 ^ 37 ≤ isqrt (M * 2 ^ k) := by
    rw [isqrt_eq_sqrt, Nat.le_sqrt]
    exact hn1
  have hr2 := isqrt_lt _ 39 hn2
  generalize M * 2 ^ k = n at *
  have hN1 : 2 ^ 38 ≤ 2 * isqrt n + (if isqrt n * isqrt n = n then 0 else 1) := by
    norm_num only at hr1 ⊢
    omega
  have hN2 : 2 * isqrt n + (if isqrt n * isqrt n = n then 0 else 1) < 2 ^ 40 := by
    norm_num only at hr2 ⊢
    split_ifs <;> omega
  have b1 := le_bitLen _ _ hN1
  have b2 := bitLen_le_of_lt _ _ hN2
  exact sqrt_round_rel n (G - 1) _ rfl (by omega) (by simp only [emin]; omega) (by omega)

/-- The square root of a `+0` or a positive normal number: finite, and within a
relative `2^-24` of the exact square root. -/
theorem sqrt_rel (a : F32) (ha : NormalOrZero 104 a) :
    (sqrt a).isFinite = true ∧
    |toReal (sqrt a) - Real.sqrt (toReal a)| ≤ Real.sqrt (toReal a) / 2 ^ 24 := by
  rcases ha with rfl | ⟨M, E, rfl, hM1, hM2, hE1, hE2⟩
  · rw [sqrt_zero, toReal_zero]
    exact ⟨rfl, by simp⟩
  · have hM0 : M ≠ 0 := by
      norm_num only at hM1
      omega
    simp only [emin] at hE1
    rw [toReal_fin_false]
    simp only [sqrt, if_neg hM0, Bool.false_eq_true, if_false]
    by_cases hpar : E % 2 = 0
    · simp only [if_pos hpar]
      obtain ⟨M2, E2, hr, -, -, herr⟩ := sqrt_normal_rel M 52 E ((E - 52) / 2) (Or.inl rfl)
        (by omega) hM1 hM2 (by omega) (by omega)
      have hx : (E - ((52 : Nat) : Int)) / 2 - 1 = (E - 52) / 2 - 1 := by omega
      rw [hx, hr, toReal_fin_false]
      exact ⟨rfl, herr⟩
    · simp only [if_neg hpar]
      obtain ⟨M2, E2, hr, -, -, herr⟩ := sqrt_normal_rel M 53 E ((E - 53) / 2) (Or.inr rfl)
        (by omega) hM1 hM2 (by omega) (by omega)
      have hx : (E - ((53 : Nat) : Int)) / 2 - 1 = (E - 53) / 2 - 1 := by omega
      rw [hx, hr, toReal_fin_false]
      exact ⟨rfl, herr⟩

theorem toReal_of_toRat (f : F32) (q : ℚ) (h : f.toRat = some q) : toReal f = (q : ℝ) := by
  cases f with
  | nan => simp [toRat] at h
  | inf s => simp [toRat] at h
  | fin s m e =>
    simp only [toRat, Option.some.injEq] at h
    subst h
    cases s <;> simp [toReal, mul_assoc]

theorem NormalOrZero.mono {K K2 : Int} {f : F32} (h : NormalOrZero K f) (hK : K ≤ K2) :
    NormalOrZero K2 f := by
  rcases h with h | ⟨M, E, h, h1, h2, h3, h4⟩
  · exact Or.inl h
  · exact Or.inr ⟨M, E, h, h1, h2, h3, le_trans h4 hK⟩

/-- Three squarings, two additions and a square root, each within a relative
`2^-24` of the exact result, stay within a relative `2^-22` of the exact
`√(a + b + c)`. -/
theorem norm_err_real (a b c fa fb fc t1 t2 R : ℝ) (ha : 0 ≤ a) (hb : 0 ≤ b) (hc : 0 ≤ c)
    (h1 : |fa - a| ≤ a / 2 ^ 24) (h2 : |fb - b| ≤ b / 2 ^ 24) (h3 : |fc - c| ≤ c / 2 ^ 24)
    (h4 : |t1 - (fa + fb)| ≤ (fa + fb) / 2 ^ 24) (h5 : |t2 - (t1 + fc)| ≤ (t1 + fc) / 2 ^ 24)
    (h6 : |R - Real.sqrt t2| ≤ Real.sqrt t2 / 2 ^ 24) :
    |R - Real.sqrt (a + b + c)| ≤ Real.sqrt (a + b + c) / 2 ^ 22 := by
  rw [abs_le] at h1 h2 h3 h4 h5 h6 ⊢
  obtain ⟨h1l, h1u⟩ := h1
  obtain ⟨h2l, h2u⟩ := h2
  obtain ⟨h3l, h3u⟩ := h3
  obtain ⟨h4l, h4u⟩ := h4
  obtain ⟨h5l, h5u⟩ := h5
  obtain ⟨h6l, h6u⟩ := h6
  have hS : 0 ≤ a + b + c := by positivity
  have hr := Real.sqrt_nonneg (a + b + c)
  have hrr : Real.sqrt (a + b + c) ^ 2 = a + b + c := Real.sq_sqrt hS
  have hup : t2 ≤ (1 + 2 / 2 ^ 24) ^ 2 * (a + b + c) := by
    norm_num only at *
    linarith
  have hlo : (1 - 2 / 2 ^ 24) ^ 2 * (a + b + c) ≤ t2 := by
    norm_num only at *
    linarith
  have hsu : Real.sqrt t2 ≤ (1 + 2 / 2 ^ 24) * Real.sqrt (a + b + c) := by
    rw [Real.sqrt_le_left (by positivity), mul_pow, hrr]
    exact hup
  have hsl : (1 - 2 / 2 ^ 24) * Real.sqrt (a + b + c) ≤ Real.sqrt t2 := by
    apply Real.le_sqrt_of_sq_le
    rw [mul_pow, hrr]
    exact hlo
  norm_num only at *
  constructor <;> linarith

end F32

/-- The literals of the driver: `1.3f` is `0x3FA66666` and `9.8f` is
`0x411CCCCD`, each within half a unit in the last place of the decimal. -/
theorem F32.driver_literals :
    (1.3 : F32) = F32.fin false 0xA66666 (-23) ∧ (9.8 : F32) = F32.fin false 0x9CCCCD (-20) ∧
    F32.within 1.3 (13 / 10) (1 / 2 ^ 24) ∧ F32.within 9.8 (98 / 10) (1 / 2 ^ 21) := by
  have h1 : (1.3 : F32) = F32.fin false 0xA66666 (-23) := by decide
  have h2 : (9.8 : F32) = F32.fin false 0x9CCCCD (-20) := by decide
  rw [h1, h2]
  exact ⟨rfl, rfl, ⟨_, rfl, by norm_num [abs_le]⟩, ⟨_, rfl, by norm_num [abs_le]⟩⟩

/-- On a binary32 vector of zeros `abs` returns `+0`. -/
theorem Vec3D.abs_of_isZero (v : Vec3D F32) (hx : v.x.isZero = true)
    (hy : v.y.isZero = true) (hz : v.z.isZero = true) : v.abs.1 = F32.zero false := by
  show F32.sqrt (v.x * v.x + v.y * v.y + v.z * v.z) = F32.zero false
  rw [F32.mul_self_of_isZero _ hx, F32.mul_self_of_isZero _ hy,
    F32.mul_self_of_isZero _ hz, F32.zero_add_zero, F32.zero_add_zero, F32.sqrt_zero]

/-- A vector whose `x` is NaN has magnitude NaN in binary32. -/
theorem Vec3D.abs_of_nan_x (y z : F32) : (Vec3D.abs (⟨F32.nan, y, z⟩ : Vec3D F32)).1 = F32.nan := by
  show F32.sqrt (F32.nan * F32.nan + y * y + z * z) = F32.nan
  rw [F32.nan_mul, F32.nan_add, F32.nan_add, F32.sqrt_nan]

set_option maxRecDepth 100000

/-- The result of `normalize`, field by field. -/
theorem Vec3D.normalize_eq {F : Type} [Add F] [Mul F] [Div F] [HasSqrt F] (x y z : F) :
    Vec3D.normalize ⟨x, y, z⟩
      = ⟨x / (Vec3D.abs ⟨x, y, z⟩).1,
         y / (Vec3D.abs ⟨x / (Vec3D.abs ⟨x, y, z⟩).1, y, z⟩).1,
         z / (Vec3D.abs ⟨x / (Vec3D.abs ⟨x, y, z⟩).1,
                y / (Vec3D.abs ⟨x / (Vec3D.abs ⟨x, y, z⟩).1, y, z⟩).1, z⟩).1⟩ :=
  rfl

/-- In binary32 the magnitude of an axis-aligned vector whose non-zero
component `a` is normal with `2^-63 ≤ |a| < 2^64` is exactly `|a|`. -/
theorem Vec3D.abs_axis (s t w : Bool) (m : Nat) (e : Int) (hm1 : 2 ^ 23 ≤ m)
    (hm2 : m < 2 ^ 24) (he1 : -86 ≤ e) (he2 : e ≤ 40) :
    (Vec3D.abs (⟨F32.fin s m e, F32.zero t, F32.zero w⟩ : Vec3D F32)).1 = F32.fin false m e ∧
    (Vec3D.abs (⟨F32.zero t, F32.fin s m e, F32.zero w⟩ : Vec3D F32)).1 = F32.fin false m e ∧
    (Vec3D.abs (⟨F32.zero t, F32.zero w, F32.fin s m e⟩ : Vec3D F32)).1 = F32.fin false m e := by
  obtain ⟨M, E, hsq, hM1, hM2, hE1, hE2, hsqrt⟩ := F32.sqrt_mul_self s m e hm1 hm2 he1 he2
  have hz : ∀ b : Bool, F32.zero b * F32.zero b = F32.zero false :=
    fun b => F32.mul_self_of_isZero _ rfl
  refine ⟨?_, ?_, ?_⟩
  · show F32.sqrt (F32.fin s m e * F32.fin s m e + F32.zero t * F32.zero t
      + F32.zero w * F32.zero w) = _
    rw [hsq, hz, hz, F32.add_zero_normal M E hM1 hM2 hE1 hE2,
      F32.add_zero_normal M E hM1 hM2 hE1 hE2, hsqrt]
  · show F32.sqrt (F32.zero t * F32.zero t + F32.fin s m e * F32.fin s m e
      + F32.zero w * F32.zero w) = _
    rw [hsq, hz, hz, F32.zero_add_normal M E hM1 hM2 hE1 hE2,
      F32.add_zero_normal M E hM1 hM2 hE1 hE2, hsqrt]
  · show F32.sqrt (F32.zero t * F32.zero t + F32.zero w * F32.zero w
      + F32.fin s m e * F32.fin s m e) = _
    rw [hsq, hz, hz, F32.zero_add_zero, F32.zero_add_normal M E hM1 hM2 hE1 hE2, hsqrt]

/-- In binary32 `normalize` maps an axis-aligned vector whose non-zero
component `a` is normal with `2^-63 ≤ |a| < 2^64` to the unit vector of that
axis with the sign of `a`; the zero components keep their sign. -/
theorem Vec3D.normalize_axis (s t w : Bool) (m : Nat) (e : Int) (hm1 : 2 ^ 23 ≤ m)
    (hm2 : m < 2 ^ 24) (he1 : -86 ≤ e) (he2 : e ≤ 40) :
    Vec3D.normalize (⟨F32.fin s m e, F32.zero t, F32.zero w⟩ : Vec3D F32)
      = ⟨F32.fin s (2 ^ 23) (-23), F32.zero t, F32.zero w⟩ ∧
    Vec3D.normalize (⟨F32.zero t, F32.fin s m e, F32.zero w⟩ : Vec3D F32)
      = ⟨F32.zero t, F32.fin s (2 ^ 23) (-23), F32.zero w⟩ ∧
    Vec3D.normalize (⟨F32.zero t, F32.zero w, F32.fin s m e⟩ : Vec3D F32)
      = ⟨F32.zero t, F32.zero w, F32.fin s (2 ^ 23) (-23)⟩ := by
  obtain ⟨hx, hy, hz⟩ := Vec3D.abs_axis s t w m e hm1 hm2 he1 he2
  have hm0 : m ≠ 0 := by
    norm_num only at hm1
    omega
  have hd := F32.div_abs_normal s m e hm1 hm2
  refine ⟨?_, ?_, ?_⟩
  · simp only [Vec3D.normalize_eq, hx, hd]
    cases s <;> cases t <;> cases w <;> decide
  · simp only [Vec3D.normalize_eq, hy, hd, F32.zero_div_fin _ m e hm0]
    cases s <;> cases t <;> cases w <;> decide
  · simp only [Vec3D.normalize_eq, hz, hd, F32.zero_div_fin _ m e hm0]

/-- In binary32 a unit vector along an axis (with zeros of either sign in the
other places) has magnitude `1` and is left unchanged by `normalize`. -/
theorem Vec3D.normalize_unit_axis (s t w : Bool) :
    ((Vec3D.abs (⟨F32.fin s (2 ^ 23) (-23), F32.zero t, F32.zero w⟩ : Vec3D F32)).1 = 1 ∧
      (Vec3D.abs (⟨F32.zero t, F32.fin s (2 ^ 23) (-23), F32.zero w⟩ : Vec3D F32)).1 = 1 ∧
      (Vec3D.abs (⟨F32.zero t, F32.zero w, F32.fin s (2 ^ 23) (-23)⟩ : Vec3D F32)).1 = 1) ∧
    (Vec3D.normalize (⟨F32.fin s (2 ^ 23) (-23), F32.zero t, F32.zero w⟩ : Vec3D F32)
        = ⟨F32.fin s (2 ^ 23) (-23), F32.zero t, F32.zero w⟩ ∧
      Vec3D.normalize (⟨F32.zero t, F32.fin s (2 ^ 23) (-23), F32.zero w⟩ : Vec3D F32)
        = ⟨F32.zero t, F32.fin s (2 ^ 23) (-23), F32.zero w⟩ ∧
      Vec3D.normalize (⟨F32.zero t, F32.zero w, F32.fin s (2 ^ 23) (-23)⟩ : Vec3D F32)
        = ⟨F32.zero t, F32.zero w, F32.fin s (2 ^ 23) (-23)⟩) := by
  cases s <;> cases t <;> cases w <;> decide

theorem euclidean_norm_eq (a b c : ℝ) :
    ‖((WithLp.equiv 2 (Fin 3 → ℝ)).symm ![a, b, c] : EuclideanSpace ℝ (Fin 3))‖
      = Real.sqrt (a * a + b * b + c * c) := by
  rw [EuclideanSpace.norm_eq]
  simp [Fin.sum_univ_three, sq]

/-- In binary32, on components in range, `abs` is finite and within a relative
`2^-22` of the square root of the exact sum of squares. -/
theorem Vec3D.abs_rel (r : Vec3D F32) (hx : r.x.InRange) (hy : r.y.InRange)
    (hz : r.z.InRange) :
    r.abs.1.isFinite = true ∧
    |r.abs.1.toReal - Real.sqrt (r.x.toReal * r.x.toReal + r.y.toReal * r.y.toReal
        + r.z.toReal * r.z.toReal)|
      ≤ Real.sqrt (r.x.toReal * r.x.toReal + r.y.toReal * r.y.toReal
        + r.z.toReal * r.z.toReal) / 2 ^ 22 := by
  obtain ⟨x, y, z⟩ := r
  simp only [Vec3D.abs, F32.sqrt_def] at hx hy hz ⊢
  obtain ⟨nx, ex⟩ := F32.sq_rel x hx
  obtain ⟨ny, ey⟩ := F32.sq_rel y hy
  obtain ⟨nz, ez⟩ := F32.sq_rel z hz
  obtain ⟨n1, e1⟩ := F32.add_rel 99 _ _ nx ny (by norm_num)
  obtain ⟨n2, e2⟩ := F32.add_rel 101 _ _ n1 (nz.mono (by norm_num)) (by norm_num)
  obtain ⟨f3, e3⟩ := F32.sqrt_rel _ (n2.mono (by norm_num))
  exact ⟨f3, F32.norm_err_real _ _ _ _ _ _ _ _ _ (mul_self_nonneg _) (mul_self_nonneg _)
    (mul_self_nonneg _) ex ey ez e1 e2 e3⟩

/-! ## The claims -/

/-- The square root of twenty-five, used to evaluate `abs` on `(3, 4, 0)`. -/
theorem sqrt_25 : Real.sqrt 25 = 5 := by
  rw [show (25 : ℝ) = 5 ^ 2 by norm_num]
  exact Real.sqrt_sq (by norm_num)

/-- C1 (the code departs from it): on `(3, 4, 0)` the magnitude at the start of
the call is `5` and dividing every component by it gives `(0.6, 0.8, 0)`, but
`normalize` returns `(0.6, 0.98894.., 0)`: its second division uses the
magnitude of the already updated vector.  This holds in binary32 and over the
reals. -/
theorem C1_normalize_recomputes_magnitude :
    (Vec3D.abs (⟨3, 4, 0⟩ : Vec3D F32)).1 = 5 ∧
    Vec3D.normalizeOnce (⟨3, 4, 0⟩ : Vec3D F32) = ⟨0.6, 0.8, 0⟩ ∧
    Vec3D.normalize (⟨3, 4, 0⟩ : Vec3D F32) = ⟨0.6, F32.fin false 16591599 (-24), 0⟩ ∧
    F32.within (F32.fin false 16591599 (-24)) 0.98894 0.00001 ∧
    Vec3D.normalize (⟨3, 4, 0⟩ : Vec3D F32) ≠ Vec3D.normalizeOnce ⟨3, 4, 0⟩ ∧
    Vec3D.normalize (⟨3, 4, 0⟩ : Vec3D ℝ) ≠ Vec3D.normalizeOnce ⟨3, 4, 0⟩ := by
  refine ⟨by decide, by decide, by decide, ⟨_, rfl, by norm_num [abs_le]⟩, by decide, ?_⟩
  intro h
  have hy := congrArg Vec3D.y h
  simp only [Vec3D.normalize, Vec3D.normalizeOnce, Vec3D.abs, HasSqrt.sqrt] at hy
  norm_num [sqrt_25] at hy
  have hs : Real.sqrt 409 * Real.sqrt 409 = 409 := Real.mul_self_sqrt (by norm_num)
  have hpos : 0 < Real.sqrt 409 := Real.sqrt_pos.mpr (by norm_num)
  have hne : Real.sqrt 409 ≠ 0 := ne_of_gt hpos
  field_simp at hy
  nlinarith [hs, hy]

/-- C2 (the code departs from it): after `normalize` on the finite non-zero
vector `(3, 4, 0)` the magnitude is `1.15672..`, not `1`, in binary32, and it is
not `1` over the reals either. -/
theorem C2_normalize_not_unit :
    (Vec3D.abs (Vec3D.normalize (⟨3, 4, 0⟩ : Vec3D F32))).1 = F32.fin false 9703249 (-23) ∧
    F32.within (F32.fin false 9703249 (-23)) 1.15672 0.00001 ∧
    ¬ F32.within (Vec3D.abs (Vec3D.normalize (⟨3, 4, 0⟩ : Vec3D F32))).1 1 0.15 ∧
    (Vec3D.abs (Vec3D.normalize (⟨3, 4, 0⟩ : Vec3D ℝ))).1 ≠ 1 := by
  have he : (Vec3D.abs (Vec3D.normalize (⟨3, 4, 0⟩ : Vec3D F32))).1
      = F32.fin false 9703249 (-23) := by decide
  refine ⟨he, ⟨_, rfl, by norm_num [abs_le]⟩, ?_, ?_⟩
  · rw [he]
    rintro ⟨q, hq, h⟩
    simp only [F32.toRat, Option.some.injEq] at hq
    subst hq
    norm_num [abs_le] at h
  · intro h
    simp only [Vec3D.normalize, Vec3D.abs, HasSqrt.sqrt] at h
    norm_num [sqrt_25] at h
    have hs : Real.sqrt 409 * Real.sqrt 409 = 409 := Real.mul_self_sqrt (by norm_num)
    have hpos : 0 < Real.sqrt 409 := Real.sqrt_pos.mpr (by norm_num)
    have hne : Real.sqrt 409 ≠ 0 := ne_of_gt hpos
    have key : 4 / (Real.sqrt 409 / 5) * (4 / (Real.sqrt 409 / 5)) = 400 / 409 := by
      field_simp
      nlinarith [hs]
    rw [key] at h
    norm_num at h

/-- C3 (the code departs from it): in the driver the vector before `normalize`
is `(1.3f, -9.8f, 0)` with magnitude `9.8858` to four decimals, and after
`normalize` its `x` is within `1e-4` of `0.13150` and its `z` is `0`, but its
`y` is `-0.99991..`, which is not within `1e-4` of `-0.99178`. -/
theorem C3_driver_normalized_vector (render : F32 → String) :
    (mainMutated render).pos1 = ⟨1.3, -9.8, 0⟩ ∧
    F32.within (mainMutated render).pos1.abs.1 9.8858 0.0001 ∧
    (mainNormalized render).pos1
      = ⟨F32.fin false 8824889 (-26), F32.fin true 16775706 (-24), 0⟩ ∧
    F32.within (mainNormalized render).pos1.x 0.13150 0.0001 ∧
    (mainNormalized render).pos1.z = 0 ∧
    F32.within (mainNormalized render).pos1.y (-0.99991) 0.00001 ∧
    ¬ F32.within (mainNormalized render).pos1.y (-0.99178) 0.0001 := by
  have hm : (mainMutated render).pos1 = (⟨0 + 1.3, 0 - 9.8, 0⟩ : Vec3D F32) := rfl
  have hn : (mainNormalized render).pos1
      = Vec3D.normalize (⟨0 + 1.3, 0 - 9.8, 0⟩ : Vec3D F32) := rfl
  have ha : (Vec3D.abs (⟨0 + 1.3, 0 - 9.8, 0⟩ : Vec3D F32)).1
      = F32.fin false 10366064 (-20) := by decide
  have he : Vec3D.normalize (⟨0 + 1.3, 0 - 9.8, 0⟩ : Vec3D F32)
      = ⟨F32.fin false 8824889 (-26), F32.fin true 16775706 (-24), 0⟩ := by decide
  rw [hn, he, hm, ha]
  refine ⟨by decide, ⟨_, rfl, by norm_num [abs_le]⟩, rfl, ⟨_, rfl, by norm_num [abs_le]⟩,
    rfl, ⟨_, rfl, by norm_num [abs_le]⟩, ?_⟩
  rintro ⟨q, hq, h⟩
  simp only [F32.toRat, Option.some.injEq] at hq
  subst hq
  norm_num [abs_le] at h

/-- C4 as stated fails in binary32.  The components of `(2^64, 0, 0)` are
finite and its Euclidean norm is `2^64`, but `abs` returns `+∞`, because `x*x`
overflows; the components of `(2^-149, 0, 0)` are finite and its Euclidean norm
is `2^-149`, but `abs` returns `+0`, because `x*x` underflows. -/
theorem C4_abs_differs_from_norm :
    ((F32.ofNat (2 ^ 64)).isFinite = true ∧ (F32.ofNat (2 ^ 64)).Canonical ∧
      (0 : F32).isFinite = true ∧
      (F32.ofNat (2 ^ 64)).toReal = 2 ^ 64 ∧ (0 : F32).toReal = 0 ∧
      ‖((WithLp.equiv 2 (Fin 3 → ℝ)).symm ![2 ^ 64, 0, 0] : EuclideanSpace ℝ (Fin 3))‖
        = 2 ^ 64 ∧
      (Vec3D.abs (⟨F32.ofNat (2 ^ 64), 0, 0⟩ : Vec3D F32)).1 = F32.inf false) ∧
    ((F32.fin false 1 (-149)).isFinite = true ∧ (F32.fin false 1 (-149)).Canonical ∧
      (F32.fin false 1 (-149)).toReal = 1 / 2 ^ 149 ∧
      ‖((WithLp.equiv 2 (Fin 3 → ℝ)).symm ![1 / 2 ^ 149, 0, 0] : EuclideanSpace ℝ (Fin 3))‖
        = 1 / 2 ^ 149 ∧
      (Vec3D.abs (⟨F32.fin false 1 (-149), 0, 0⟩ : Vec3D F32)).1 = F32.zero false ∧
      (F32.zero false).toReal = 0) := by
  have h64 : F32.ofNat (2 ^ 64) = F32.fin false (2 ^ 23) 41 := by decide
  have hn : ∀ a : ℝ, 0 ≤ a →
      ‖((WithLp.equiv 2 (Fin 3 → ℝ)).symm ![a, 0, 0] : EuclideanSpace ℝ (Fin 3))‖ = a := by
    intro a ha
    rw [euclidean_norm_eq]
    simp only [mul_zero, add_zero]
    exact Real.sqrt_mul_self ha
  refine ⟨⟨by decide, by decide, by decide, ?_, F32.toReal_zero false, hn _ (by positivity),
    by decide⟩, by decide, by decide, ?_, hn _ (by positivity), by decide, F32.toReal_zero false⟩
  · rw [h64, F32.toReal_fin_false]
    norm_num
  · rw [F32.toReal_fin_false]
    norm_num

/-- C4 (amended).  For finite binary32 components `abs` returns the binary32
value of `sqrt(x*x + y*y + z*z)`, the result is non-negative (never NaN), and
the receiver is unchanged.  When every component is a zero or a normal number
`c` with `2^-63 ≤ |c| < 2^61`, the result is finite and differs from the
Euclidean norm of `(x, y, z)` by at most that norm times `2^-22`.  Over the
reals the returned value is the Euclidean norm exactly and is non-negative. -/
theorem C4_abs_near_euclidean_norm (v : Vec3D F32) (hx : v.x.isFinite = true)
    (hy : v.y.isFinite = true) (hz : v.z.isFinite = true)
    (r : Vec3D F32) (rx : r.x.InRange) (ry : r.y.InRange) (rz : r.z.InRange)
    (w : Vec3D ℝ) :
    (v.abs.1 = F32.sqrt (v.x * v.x + v.y * v.y + v.z * v.z) ∧
      v.abs.1.isNonneg = true ∧ v.abs.1.isNaN = false ∧ v.abs.2 = v) ∧
    (r.abs.1.isFinite = true ∧
      |r.abs.1.toReal - ‖((WithLp.equiv 2 (Fin 3 → ℝ)).symm
            ![r.x.toReal, r.y.toReal, r.z.toReal] : EuclideanSpace ℝ (Fin 3))‖|
        ≤ ‖((WithLp.equiv 2 (Fin 3 → ℝ)).symm
            ![r.x.toReal, r.y.toReal, r.z.toReal] : EuclideanSpace ℝ (Fin 3))‖ / 2 ^ 22) ∧
    (w.abs.1 = ‖((WithLp.equiv 2 (Fin 3 → ℝ)).symm ![w.x, w.y, w.z] : EuclideanSpace ℝ (Fin 3))‖ ∧
      0 ≤ w.abs.1 ∧ w.abs.2 = w) := by
  have hn : v.abs.1.isNonneg = true :=
    F32.isNonneg_sqrt _ (F32.isNonneg_add _ _
      (F32.isNonneg_add _ _ (F32.isNonneg_mul_self _ hx) (F32.isNonneg_mul_self _ hy))
      (F32.isNonneg_mul_self _ hz))
  refine ⟨⟨rfl, hn, F32.isNaN_eq_false_of_isNonneg _ hn, rfl⟩, ?_, ?_, Real.sqrt_nonneg _, rfl⟩
  · rw [euclidean_norm_eq]
    exact Vec3D.abs_rel r rx ry rz
  · rw [euclidean_norm_eq]
    rfl

/-- Witness for C4 at `(3, 4, 0)`. -/
theorem C4_abs_near_euclidean_norm_witness :
    ((3 : F32).isFinite = true ∧ (4 : F32).isFinite = true ∧ (0 : F32).isFinite = true) ∧
    ((3 : F32).InRange ∧ (4 : F32).InRange ∧ (0 : F32).InRange) ∧
    ((Vec3D.abs (⟨3, 4, 0⟩ : Vec3D F32)).1 = F32.sqrt (3 * 3 + 4 * 4 + 0 * 0) ∧
      (Vec3D.abs (⟨3, 4, 0⟩ : Vec3D F32)).1.isNonneg = true ∧
      (Vec3D.abs (⟨3, 4, 0⟩ : Vec3D F32)).1.isNaN = false ∧
      (Vec3D.abs (⟨3, 4, 0⟩ : Vec3D F32)).2 = ⟨3, 4, 0⟩) ∧
    ((Vec3D.abs (⟨3, 4, 0⟩ : Vec3D F32)).1.isFinite = true ∧
      |(Vec3D.abs (⟨3, 4, 0⟩ : Vec3D F32)).1.toReal - ‖((WithLp.equiv 2 (Fin 3 → ℝ)).symm
            ![(3 : F32).toReal, (4 : F32).toReal, (0 : F32).toReal] :
              EuclideanSpace ℝ (Fin 3))‖|
        ≤ ‖((WithLp.equiv 2 (Fin 3 → ℝ)).symm
            ![(3 : F32).toReal, (4 : F32).toReal, (0 : F32).toReal] :
              EuclideanSpace ℝ (Fin 3))‖ / 2 ^ 22) ∧
    ((Vec3D.abs (⟨3, 4, 0⟩ : Vec3D ℝ)).1
        = ‖((WithLp.equiv 2 (Fin 3 → ℝ)).symm ![3, 4, 0] : EuclideanSpace ℝ (Fin 3))‖ ∧
      0 ≤ (Vec3D.abs (⟨3, 4, 0⟩ : Vec3D ℝ)).1 ∧
      (Vec3D.abs (⟨3, 4, 0⟩ : Vec3D ℝ)).2 = ⟨3, 4, 0⟩) :=
  ⟨⟨by decide, by decide, by decide⟩, ⟨by decide, by decide, by decide⟩,
    C4_abs_near_euclidean_norm ⟨3, 4, 0⟩ (by decide) (by decide) (by decide)
      ⟨3, 4, 0⟩ (by decide) (by decide) (by decide) ⟨3, 4, 0⟩⟩

/-- C5: `copy` returns a vector equal to the receiver and leaves the receiver
unchanged, and after any sequence of assignments to fields of the returned
copy the receiver still has the value it had. -/
theorem C5_copy_equal_and_independent {F : Type} (v : Vec3D F)
    (ws : List (Vec3D.Field × F)) :
    v.copy.1 = v ∧ v.copy.2 = v ∧
    (ws.foldl Objects.assignResult (Objects.afterCopy v)).receiver = v := by
  have key : ∀ (l : List (Vec3D.Field × F)) (s : Objects F),
      (l.foldl Objects.assignResult s).receiver = s.receiver := by
    intro l
    induction l with
    | nil => intro s; rfl
    | cons w l ih =>
      intro s
      rw [List.foldl_cons, ih]
      rfl
  exact ⟨rfl, rfl, by rw [key]; rfl⟩

/-- C6: `make` is a constant (no input, no failure) whose three fields are `0`;
in binary32 each field is the datum `+0`. -/
theorem C6_make_is_zero_vector :
    (∀ (F : Type) [Zero F], (Vec3D.make : Vec3D F) = ⟨0, 0, 0⟩) ∧
    (Vec3D.make : Vec3D F32) = ⟨F32.fin false 0 (-149), F32.fin false 0 (-149),
      F32.fin false 0 (-149)⟩ :=
  ⟨fun _ _ => rfl, rfl⟩

/-- C7: the magnitude of `make()` is `0`, and `abs` returns `+0` on every
binary32 vector whose three components are zeros (of either sign); over the
reals `abs` returns `0` when `x = y = z = 0`. -/
theorem C7_abs_of_zero_vector (v : Vec3D F32) (hx : v.x.isZero = true)
    (hy : v.y.isZero = true) (hz : v.z.isZero = true)
    (w : Vec3D ℝ) (hw : w.x = 0 ∧ w.y = 0 ∧ w.z = 0) :
    (Vec3D.abs (Vec3D.make : Vec3D F32)).1 = 0 ∧ v.abs.1 = 0 ∧
    (Vec3D.abs (Vec3D.make : Vec3D ℝ)).1 = 0 ∧ w.abs.1 = 0 := by
  refine ⟨by decide, ?_, ?_, ?_⟩
  · exact Vec3D.abs_of_isZero v hx hy hz
  · simp [Vec3D.abs, Vec3D.make, HasSqrt.sqrt]
  · obtain ⟨h1, h2, h3⟩ := hw
    simp [Vec3D.abs, HasSqrt.sqrt, h1, h2, h3]

/-- Witness for C7 at `(-0, +0, -0)` in binary32 and `(0, 0, 0)` over the reals. -/
theorem C7_abs_of_zero_vector_witness :
    ((F32.zero true).isZero = true ∧ (F32.zero false).isZero = true ∧
      ((0 : ℝ) = 0 ∧ (0 : ℝ) = 0 ∧ (0 : ℝ) = 0)) ∧
    ((Vec3D.abs (Vec3D.make : Vec3D F32)).1 = 0 ∧
      (Vec3D.abs (⟨F32.zero true, F32.zero false, F32.zero true⟩ : Vec3D F32)).1 = 0 ∧
      (Vec3D.abs (Vec3D.make : Vec3D ℝ)).1 = 0 ∧
      (Vec3D.abs (⟨0, 0, 0⟩ : Vec3D ℝ)).1 = 0) :=
  ⟨⟨by decide, by decide, rfl, rfl, rfl⟩,
    C7_abs_of_zero_vector ⟨F32.zero true, F32.zero false, F32.zero true⟩
      (by decide) (by decide) (by decide) ⟨0, 0, 0⟩ ⟨rfl, rfl, rfl⟩⟩

/-- C8: `normalize` is total (it returns a vector, no error), and on `make()`,
as on every binary32 vector whose three components are zeros, it leaves all
three fields NaN: `x` is `0/0`, and the divisors of `y` and `z` are magnitudes
of a vector whose `x` is already NaN. -/
theorem C8_normalize_zero_vector_is_nan (v : Vec3D F32) (hx : v.x.isZero = true)
    (hy : v.y.isZero = true) (hz : v.z.isZero = true) :
    Vec3D.normalize (Vec3D.make : Vec3D F32) = ⟨F32.nan, F32.nan, F32.nan⟩ ∧
    v.normalize = ⟨F32.nan, F32.nan, F32.nan⟩ ∧
    (v.x / v.abs.1 = F32.nan ∧
      (Vec3D.abs { v with x := F32.nan }).1 = F32.nan ∧
      (Vec3D.abs { v with x := F32.nan, y := F32.nan }).1 = F32.nan) := by
  have ha : v.abs.1 = F32.zero false := Vec3D.abs_of_isZero v hx hy hz
  have h1 : v.x / v.abs.1 = F32.nan := by rw [ha]; exact F32.div_zero_of_isZero _ hx
  have h2 : (Vec3D.abs { v with x := F32.nan }).1 = F32.nan := Vec3D.abs_of_nan_x _ _
  have h3 : (Vec3D.abs { v with x := F32.nan, y := F32.nan }).1 = F32.nan :=
    Vec3D.abs_of_nan_x _ _
  refine ⟨by decide, ?_, h1, h2, h3⟩
  show Vec3D.mk (v.x / v.abs.1)
      (v.y / (Vec3D.abs { v with x := v.x / v.abs.1 }).1)
      (v.z / (Vec3D.abs { v with x := (v.x / v.abs.1)
                                 y := (v.y / (Vec3D.abs { v with x := v.x / v.abs.1 }).1) }).1) = _
  rw [h1, h2, F32.div_nan, h3, F32.div_nan]

/-- Witness for C8 at `(+0, -0, +0)`. -/
theorem C8_normalize_zero_vector_is_nan_witness :
    ((F32.zero false).isZero = true ∧ (F32.zero true).isZero = true) ∧
    (Vec3D.normalize (Vec3D.make : Vec3D F32) = ⟨F32.nan, F32.nan, F32.nan⟩ ∧
      Vec3D.normalize (⟨F32.zero false, F32.zero true, F32.zero false⟩ : Vec3D F32)
        = ⟨F32.nan, F32.nan, F32.nan⟩ ∧
      (F32.zero false / (Vec3D.abs (⟨F32.zero false, F32.zero true, F32.zero false⟩ :
          Vec3D F32)).1 = F32.nan ∧
        (Vec3D.abs (⟨F32.nan, F32.zero true, F32.zero false⟩ : Vec3D F32)).1 = F32.nan ∧
        (Vec3D.abs (⟨F32.nan, F32.nan, F32.zero false⟩ : Vec3D F32)).1 = F32.nan)) :=
  ⟨⟨by decide, by decide⟩,
    C8_normalize_zero_vector_is_nan ⟨F32.zero false, F32.zero true, F32.zero false⟩
      (by decide) (by decide) (by decide)⟩

/-- C9 as stated fails: `(2^64, 0, 0)` has finite binary32 components, all
data of the format, and `abs` returns `+∞` on it, because `x*x` overflows. -/
theorem C9_abs_overflows_on_finite_input :
    ((F32.ofNat (2 ^ 64)).isFinite = true ∧ (F32.ofNat (2 ^ 64)).Canonical ∧
      (0 : F32).isFinite = true ∧ (0 : F32).Canonical) ∧
    (Vec3D.abs (⟨F32.ofNat (2 ^ 64), 0, 0⟩ : Vec3D F32)).1 = F32.inf false ∧
    (Vec3D.abs (⟨F32.ofNat (2 ^ 64), 0, 0⟩ : Vec3D F32)).1.isFinite = false := by
  decide

/-- C9 (amended): for finite binary32 components `abs` never returns NaN, its
result is non-negative, it is finite exactly when the binary32 sum
`x*x + y*y + z*z` is finite, and otherwise it is `+∞`. -/
theorem C9_abs_finite_iff_sum_finite (v : Vec3D F32) (hx : v.x.isFinite = true)
    (hy : v.y.isFinite = true) (hz : v.z.isFinite = true) :
    v.abs.1.isNaN = false ∧ v.abs.1.isNonneg = true ∧
    (v.abs.1.isFinite = true ↔ (v.x * v.x + v.y * v.y + v.z * v.z).isFinite = true) ∧
    (v.abs.1.isFinite = false → v.abs.1 = F32.inf false) := by
  have hs : (v.x * v.x + v.y * v.y + v.z * v.z).isNonneg = true :=
    F32.isNonneg_add _ _
      (F32.isNonneg_add _ _ (F32.isNonneg_mul_self _ hx) (F32.isNonneg_mul_self _ hy))
      (F32.isNonneg_mul_self _ hz)
  have hn : v.abs.1.isNonneg = true := F32.isNonneg_sqrt _ hs
  refine ⟨F32.isNaN_eq_false_of_isNonneg _ hn, hn, ⟨?_, ?_⟩, F32.eq_inf_of_isNonneg _ hn⟩
  · exact F32.isFinite_of_isFinite_sqrt _
  · exact F32.isFinite_sqrt _ (F32.canonical_add _ _) hs

/-- Witness for C9 (amended) at `(3, 4, 0)`. -/
theorem C9_abs_finite_iff_sum_finite_witness :
    ((3 : F32).isFinite = true ∧ (4 : F32).isFinite = true ∧ (0 : F32).isFinite = true) ∧
    ((Vec3D.abs (⟨3, 4, 0⟩ : Vec3D F32)).1.isNaN = false ∧
      (Vec3D.abs (⟨3, 4, 0⟩ : Vec3D F32)).1.isNonneg = true ∧
      ((Vec3D.abs (⟨3, 4, 0⟩ : Vec3D F32)).1.isFinite = true ↔
        ((3 : F32) * 3 + 4 * 4 + 0 * 0).isFinite = true) ∧
      ((Vec3D.abs (⟨3, 4, 0⟩ : Vec3D F32)).1.isFinite = false →
        (Vec3D.abs (⟨3, 4, 0⟩ : Vec3D F32)).1 = F32.inf false)) :=
  ⟨⟨by decide, by decide, by decide⟩,
    C9_abs_finite_iff_sum_finite ⟨3, 4, 0⟩ (by decide) (by decide) (by decide)⟩

/-- C10 as stated fails: on `make()` (every field rendered as `0`) the text
written by `operator<<` is the five lines headed by `struct Vec3D`, which is
not the text headed by `Vector3`. -/
theorem C10_header_not_Vector3 :
    (operatorLtLt (fun _ : F32 => "0") "" Vec3D.make).1
      = "struct Vec3D \x7b\n\t.x = 0\n\t.y = 0\n\t.z = 0\n\x7d\n" ∧
    (operatorLtLt (fun _ : F32 => "0") "" Vec3D.make).1
      ≠ "Vector3 \x7b\n\t.x = 0\n\t.y = 0\n\t.z = 0\n\x7d\n" := by
  decide

/-- C10 (amended): `operator<<` appends to the stream exactly five lines, each
one closed by a line break: the header `struct Vec3D` with an opening brace,
the three fields `x`, `y`, `z` in that order, each as a tab, the field name and
the rendering of its current value, and a closing brace; the text depends on
the vector through its three fields only, and the vector is not modified. -/
theorem C10_operatorLtLt_text {F : Type} (render : F → String) (os : String)
    (pos : Vec3D F) :
    (operatorLtLt render os pos).1
      = os ++ String.join (List.map (fun l => l ++ "\n")
          ["struct Vec3D \x7b", "\t.x = " ++ render pos.x, "\t.y = " ++ render pos.y,
            "\t.z = " ++ render pos.z, "\x7d"]) ∧
    (operatorLtLt render os pos).2 = pos := by
  refine ⟨?_, rfl⟩
  simp only [operatorLtLt, endl, String.join, List.map, List.foldl, String.append_assoc,
    String.empty_append]

/-- The text `operator<<` adds does not depend on what the stream already
holds. -/
theorem operatorLtLt_fst {F : Type} (render : F → String) (os : String) (pos : Vec3D F) :
    (operatorLtLt render os pos).1 = os ++ (operatorLtLt render "" pos).1 := by
  simp only [operatorLtLt, String.append_assoc, String.empty_append]

/-- C11: `main` returns status `0` and writes exactly: the label `Before:`, the
formatted zero vector, the label `After:`, the formatted vector that
`normalize` makes of `(1.3f, -9.8f, 0)`, the label `Vec3D2:` and the formatted
copy, each label and each block followed by one line break; the copy equals
the normalized vector, so the third block is the same text as the second. -/
theorem C11_main_output (render : F32 → String) :
    main render =
      (0, "Before:" ++ "\n" ++ (operatorLtLt render "" Vec3D.make).1 ++ "\n" ++
          ("After:" ++ "\n" ++
            (operatorLtLt render "" (Vec3D.normalize ⟨1.3, -9.8, 0⟩)).1 ++ "\n") ++
          ("Vec3D2:" ++ "\n" ++
            (operatorLtLt render "" (Vec3D.normalize ⟨1.3, -9.8, 0⟩)).1 ++ "\n")) ∧
    (mainAfter render).pos1 = Vec3D.normalize ⟨1.3, -9.8, 0⟩ ∧
    (mainAfter render).pos2 = some (mainAfter render).pos1 ∧
    (main render).1 = 0 := by
  have hv : (⟨0 + 1.3, 0 - 9.8, 0⟩ : Vec3D F32) = ⟨1.3, -9.8, 0⟩ := by decide
  have h1 : (mainAfter render).pos1 = Vec3D.normalize (⟨0 + 1.3, 0 - 9.8, 0⟩ : Vec3D F32) := rfl
  have h2 : (mainAfter render).pos2 = some (mainAfter render).pos1 := rfl
  refine ⟨?_, by rw [h1, hv], h2, rfl⟩
  rw [← hv]
  simp only [main, mainAfter, mainNormalized, mainMutated, mainBefore, Vec3D.copy, endl,
    operatorLtLt_fst render (_ ++ _), String.append_assoc, String.empty_append]
  rfl

/-- C12: `normalize` computes, in this order, `x' = x / sqrt(x*x + y*y + z*z)`,
`y' = y / sqrt(x'*x' + y*y + z*z)` and `z' = z / sqrt(x'*x' + y'*y' + z*z)`:
each divisor is `abs()` of the vector as updated so far.  This holds for every
scalar type, in particular in binary32 and over the reals. -/
theorem C12_normalize_formula {F : Type} [Add F] [Mul F] [Div F] [HasSqrt F] (x y z : F) :
    Vec3D.normalize ⟨x, y, z⟩
      = ⟨x / HasSqrt.sqrt (x * x + y * y + z * z),
         y / HasSqrt.sqrt (x / HasSqrt.sqrt (x * x + y * y + z * z)
              * (x / HasSqrt.sqrt (x * x + y * y + z * z)) + y * y + z * z),
         z / HasSqrt.sqrt (x / HasSqrt.sqrt (x * x + y * y + z * z)
              * (x / HasSqrt.sqrt (x * x + y * y + z * z))
            + y / HasSqrt.sqrt (x / HasSqrt.sqrt (x * x + y * y + z * z)
                * (x / HasSqrt.sqrt (x * x + y * y + z * z)) + y * y + z * z)
              * (y / HasSqrt.sqrt (x / HasSqrt.sqrt (x * x + y * y + z * z)
                * (x / HasSqrt.sqrt (x * x + y * y + z * z)) + y * y + z * z))
            + z * z)⟩ ∧
    (∀ v : Vec3D F,
      v.normalize =
        { x := v.x / v.abs.1,
          y := v.y / (Vec3D.abs { v with x := v.x / v.abs.1 }).1,
          z := v.z / (Vec3D.abs { v with x := (v.x / v.abs.1)
                                         y := (v.y / (Vec3D.abs { v with x := v.x / v.abs.1 }).1) }).1 }) :=
  ⟨rfl, fun _ => rfl⟩

/-- Over the reals a quotient by a positive number has the sign of the
numerator. -/
theorem sign_div_of_pos (x a : ℝ) (ha : 0 < a) : SignType.sign (x / a) = SignType.sign x := by
  rcases lt_trichotomy x 0 with h | h | h
  · rw [sign_neg h, sign_neg (div_neg_of_neg_of_pos h ha)]
  · rw [h, zero_div]
  · rw [sign_pos h, sign_pos (div_pos h ha)]

/-- Over the reals a number divided by a square root of a sum that contains
its square lies in `[-1, 1]`. -/
theorem abs_div_sqrt_le_one (x s : ℝ) (hs : x * x ≤ s) : |x / Real.sqrt s| ≤ 1 := by
  have h0 : 0 ≤ Real.sqrt s := Real.sqrt_nonneg s
  have h1 : |x| ≤ Real.sqrt s := Real.abs_le_sqrt (by rw [sq]; exact hs)
  rw [abs_div, abs_of_nonneg h0]
  exact div_le_one_of_le₀ h1 h0

/-- C13: over the reals, on a non-zero vector the three magnitudes by which
`normalize` divides are strictly positive, and each resulting component has
the sign of the original one, is `0` if that one was `0`, and lies in
`[-1, 1]`. -/
theorem C13_normalize_real_safe (v : Vec3D ℝ) (h : v.x ≠ 0 ∨ v.y ≠ 0 ∨ v.z ≠ 0) :
    (0 < v.abs.1 ∧
      0 < (Vec3D.abs { v with x := v.x / v.abs.1 }).1 ∧
      0 < (Vec3D.abs { v with x := (v.x / v.abs.1)
                              y := (v.y / (Vec3D.abs { v with x := v.x / v.abs.1 }).1) }).1) ∧
    (SignType.sign v.normalize.x = SignType.sign v.x ∧
      SignType.sign v.normalize.y = SignType.sign v.y ∧
      SignType.sign v.normalize.z = SignType.sign v.z) ∧
    ((v.x = 0 → v.normalize.x = 0) ∧ (v.y = 0 → v.normalize.y = 0) ∧
      (v.z = 0 → v.normalize.z = 0)) ∧
    (|v.normalize.x| ≤ 1 ∧ |v.normalize.y| ≤ 1 ∧ |v.normalize.z| ≤ 1) := by
  obtain ⟨x, y, z⟩ := v
  simp only [Vec3D.normalize, Vec3D.abs, HasSqrt.sqrt] at h ⊢
  have hxx := mul_self_nonneg x
  have hyy := mul_self_nonneg y
  have hzz := mul_self_nonneg z
  -- first magnitude
  have h1 : 0 < x * x + y * y + z * z := by
    rcases h with h | h | h
    · have := mul_self_pos.mpr h
      linarith
    · have := mul_self_pos.mpr h
      linarith
    · have := mul_self_pos.mpr h
      linarith
  have a1 : 0 < Real.sqrt (x * x + y * y + z * z) := Real.sqrt_pos.mpr h1
  -- second magnitude
  have hx' : x ≠ 0 → x / Real.sqrt (x * x + y * y + z * z) ≠ 0 :=
    fun hx => div_ne_zero hx (ne_of_gt a1)
  have hxx' := mul_self_nonneg (x / Real.sqrt (x * x + y * y + z * z))
  have h2 : 0 < x / Real.sqrt (x * x + y * y + z * z)
      * (x / Real.sqrt (x * x + y * y + z * z)) + y * y + z * z := by
    rcases h with h | h | h
    · have := mul_self_pos.mpr (hx' h)
      linarith
    · have := mul_self_pos.mpr h
      linarith
    · have := mul_self_pos.mpr h
      linarith
  have a2 := Real.sqrt_pos.mpr h2
  -- third magnitude
  have hy' : y ≠ 0 → y / Real.sqrt (x / Real.sqrt (x * x + y * y + z * z)
      * (x / Real.sqrt (x * x + y * y + z * z)) + y * y + z * z) ≠ 0 :=
    fun hy => div_ne_zero hy (ne_of_gt a2)
  have hyy' := mul_self_nonneg (y / Real.sqrt (x / Real.sqrt (x * x + y * y + z * z)
      * (x / Real.sqrt (x * x + y * y + z * z)) + y * y + z * z))
  have h3 : 0 < x / Real.sqrt (x * x + y * y + z * z)
      * (x / Real.sqrt (x * x + y * y + z * z))
      + y / Real.sqrt (x / Real.sqrt (x * x + y * y + z * z)
          * (x / Real.sqrt (x * x + y * y + z * z)) + y * y + z * z)
        * (y / Real.sqrt (x / Real.sqrt (x * x + y * y + z * z)
          * (x / Real.sqrt (x * x + y * y + z * z)) + y * y + z * z))
      + z * z := by
    rcases h with h | h | h
    · have := mul_self_pos.mpr (hx' h)
      linarith
    · have := mul_self_pos.mpr (hy' h)
      linarith
    · have := mul_self_pos.mpr h
      linarith
  have a3 := Real.sqrt_pos.mpr h3
  refine ⟨⟨a1, a2, a3⟩, ⟨sign_div_of_pos _ _ a1, sign_div_of_pos _ _ a2, sign_div_of_pos _ _ a3⟩,
    ⟨?_, ?_, ?_⟩, ⟨?_, ?_, ?_⟩⟩
  · intro hx
    have h0 : x = 0 := hx
    show x / _ = 0
    rw [h0, zero_div]
  · intro hy
    have h0 : y = 0 := hy
    show y / _ = 0
    rw [h0, zero_div]
  · intro hz
    have h0 : z = 0 := hz
    show z / _ = 0
    rw [h0, zero_div]
  · exact abs_div_sqrt_le_one _ _ (by linarith)
  · exact abs_div_sqrt_le_one _ _ (by linarith)
  · exact abs_div_sqrt_le_one _ _ (by linarith)

/-- Witness for C13 at `(3, 4, 0)`. -/
theorem C13_normalize_real_safe_witness :
    ((3 : ℝ) ≠ 0 ∨ (4 : ℝ) ≠ 0 ∨ (0 : ℝ) ≠ 0) ∧
    ((0 < (Vec3D.abs (⟨3, 4, 0⟩ : Vec3D ℝ)).1 ∧
      0 < (Vec3D.abs (⟨3 / (Vec3D.abs (⟨3, 4, 0⟩ : Vec3D ℝ)).1, 4, 0⟩ : Vec3D ℝ)).1 ∧
      0 < (Vec3D.abs (⟨3 / (Vec3D.abs (⟨3, 4, 0⟩ : Vec3D ℝ)).1,
            4 / (Vec3D.abs (⟨3 / (Vec3D.abs (⟨3, 4, 0⟩ : Vec3D ℝ)).1, 4, 0⟩ : Vec3D ℝ)).1,
            0⟩ : Vec3D ℝ)).1) ∧
    (SignType.sign (Vec3D.normalize (⟨3, 4, 0⟩ : Vec3D ℝ)).x = SignType.sign (3 : ℝ) ∧
      SignType.sign (Vec3D.normalize (⟨3, 4, 0⟩ : Vec3D ℝ)).y = SignType.sign (4 : ℝ) ∧
      SignType.sign (Vec3D.normalize (⟨3, 4, 0⟩ : Vec3D ℝ)).z = SignType.sign (0 : ℝ)) ∧
    (((3 : ℝ) = 0 → (Vec3D.normalize (⟨3, 4, 0⟩ : Vec3D ℝ)).x = 0) ∧
      ((4 : ℝ) = 0 → (Vec3D.normalize (⟨3, 4, 0⟩ : Vec3D ℝ)).y = 0) ∧
      ((0 : ℝ) = 0 → (Vec3D.normalize (⟨3, 4, 0⟩ : Vec3D ℝ)).z = 0)) ∧
    (|(Vec3D.normalize (⟨3, 4, 0⟩ : Vec3D ℝ)).x| ≤ 1 ∧
      |(Vec3D.normalize (⟨3, 4, 0⟩ : Vec3D ℝ)).y| ≤ 1 ∧
      |(Vec3D.normalize (⟨3, 4, 0⟩ : Vec3D ℝ)).z| ≤ 1)) :=
  ⟨Or.inl (by norm_num), C13_normalize_real_safe ⟨3, 4, 0⟩ (Or.inl (by norm_num))⟩

/-- C14 as stated fails in binary32: `2^64` and `2^-77` are non-zero floats,
but `normalize` turns `(2^64, 0, 0)` into `(0, NaN, NaN)`, because `x*x`
overflows, and `(2^-77, 0, 0)` into `(+∞, 0, 0)`, because `x*x` underflows to
`0`. -/
theorem C14_axis_overflow_underflow :
    ((F32.ofNat (2 ^ 64)).Canonical ∧ (F32.ofNat (2 ^ 64)).isFinite = true ∧
      (F32.ofNat (2 ^ 64)).isZero = false ∧
      Vec3D.normalize (⟨F32.ofNat (2 ^ 64), 0, 0⟩ : Vec3D F32) = ⟨0, F32.nan, F32.nan⟩) ∧
    ((F32.fin false (2 ^ 23) (-100)).Canonical ∧
      (F32.fin false (2 ^ 23) (-100)).isZero = false ∧
      Vec3D.normalize (⟨F32.fin false (2 ^ 23) (-100), 0, 0⟩ : Vec3D F32)
        = ⟨F32.inf false, 0, 0⟩) := by
  decide

/-- C14 (amended).  Over the reals, for `a ≠ 0`: `normalize` maps `(a,0,0)`,
`(0,a,0)` and `(0,0,a)` to the unit vector of that axis, the non-zero component
becoming `a/|a|`, which is `1` or `-1`, the others staying `0`; the magnitude
of the result is `1`, and a second `normalize` changes nothing.  In binary32
the same holds when `a` is a normal number with `2^-63 ≤ |a| < 2^64` (sign bit
`s`, significand `m`, exponent `e`) and the other two components are zeros of
either sign: the non-zero component becomes `1` or `-1` with the sign of `a`
and the zeros are kept. -/
theorem C14_normalize_axis_aligned (a : ℝ) (ha : a ≠ 0)
    (s t w : Bool) (m : Nat) (e : Int) (hm1 : 2 ^ 23 ≤ m) (hm2 : m < 2 ^ 24)
    (he1 : -86 ≤ e) (he2 : e ≤ 40) :
    ((a / |a| = 1 ∨ a / |a| = -1) ∧
      (Vec3D.normalize (⟨a, 0, 0⟩ : Vec3D ℝ) = ⟨a / |a|, 0, 0⟩ ∧
        Vec3D.normalize (⟨0, a, 0⟩ : Vec3D ℝ) = ⟨0, a / |a|, 0⟩ ∧
        Vec3D.normalize (⟨0, 0, a⟩ : Vec3D ℝ) = ⟨0, 0, a / |a|⟩) ∧
      ((Vec3D.abs (Vec3D.normalize (⟨a, 0, 0⟩ : Vec3D ℝ))).1 = 1 ∧
        (Vec3D.abs (Vec3D.normalize (⟨0, a, 0⟩ : Vec3D ℝ))).1 = 1 ∧
        (Vec3D.abs (Vec3D.normalize (⟨0, 0, a⟩ : Vec3D ℝ))).1 = 1) ∧
      (Vec3D.normalize (Vec3D.normalize (⟨a, 0, 0⟩ : Vec3D ℝ)) = Vec3D.normalize ⟨a, 0, 0⟩ ∧
        Vec3D.normalize (Vec3D.normalize (⟨0, a, 0⟩ : Vec3D ℝ)) = Vec3D.normalize ⟨0, a, 0⟩ ∧
        Vec3D.normalize (Vec3D.normalize (⟨0, 0, a⟩ : Vec3D ℝ))
          = Vec3D.normalize ⟨0, 0, a⟩)) ∧
    ((F32.fin false (2 ^ 23) (-23) = 1 ∧ F32.fin true (2 ^ 23) (-23) = -1) ∧
      (Vec3D.normalize (⟨F32.fin s m e, F32.zero t, F32.zero w⟩ : Vec3D F32)
          = ⟨F32.fin s (2 ^ 23) (-23), F32.zero t, F32.zero w⟩ ∧
        Vec3D.normalize (⟨F32.zero t, F32.fin s m e, F32.zero w⟩ : Vec3D F32)
          = ⟨F32.zero t, F32.fin s (2 ^ 23) (-23), F32.zero w⟩ ∧
        Vec3D.normalize (⟨F32.zero t, F32.zero w, F32.fin s m e⟩ : Vec3D F32)
          = ⟨F32.zero t, F32.zero w, F32.fin s (2 ^ 23) (-23)⟩) ∧
      ((Vec3D.abs (Vec3D.normalize
            (⟨F32.fin s m e, F32.zero t, F32.zero w⟩ : Vec3D F32))).1 = 1 ∧
        (Vec3D.abs (Vec3D.normalize
            (⟨F32.zero t, F32.fin s m e, F32.zero w⟩ : Vec3D F32))).1 = 1 ∧
        (Vec3D.abs (Vec3D.normalize
            (⟨F32.zero t, F32.zero w, F32.fin s m e⟩ : Vec3D F32))).1 = 1) ∧
      (Vec3D.normalize (Vec3D.normalize (⟨F32.fin s m e, F32.zero t, F32.zero w⟩ : Vec3D F32))
          = Vec3D.normalize ⟨F32.fin s m e, F32.zero t, F32.zero w⟩ ∧
        Vec3D.normalize (Vec3D.normalize (⟨F32.zero t, F32.fin s m e, F32.zero w⟩ : Vec3D F32))
          = Vec3D.normalize ⟨F32.zero t, F32.fin s m e, F32.zero w⟩ ∧
        Vec3D.normalize (Vec3D.normalize (⟨F32.zero t, F32.zero w, F32.fin s m e⟩ : Vec3D F32))
          = Vec3D.normalize ⟨F32.zero t, F32.zero w, F32.fin s m e⟩)) := by
  constructor
  · have habs : 0 < |a| := abs_pos.mpr ha
    have hu : a / |a| * (a / |a|) = 1 := by
      rw [div_mul_div_comm, ← abs_mul_abs_self a]
      exact div_self (ne_of_gt (mul_pos habs habs))
    have hpm : a / |a| = 1 ∨ a / |a| = -1 := by
      rcases lt_or_gt_of_ne ha with h | h
      · right
        rw [abs_of_neg h, div_neg, div_self ha]
      · left
        rw [abs_of_pos h, div_self ha]
    have hs : Real.sqrt (a * a) = |a| := Real.sqrt_mul_self_eq_abs a
    have hx : Vec3D.normalize (⟨a, 0, 0⟩ : Vec3D ℝ) = ⟨a / |a|, 0, 0⟩ := by
      simp [Vec3D.normalize, Vec3D.abs, HasSqrt.sqrt, hs]
    have hy : Vec3D.normalize (⟨0, a, 0⟩ : Vec3D ℝ) = ⟨0, a / |a|, 0⟩ := by
      simp [Vec3D.normalize, Vec3D.abs, HasSqrt.sqrt, hs]
    have hz : Vec3D.normalize (⟨0, 0, a⟩ : Vec3D ℝ) = ⟨0, 0, a / |a|⟩ := by
      simp [Vec3D.normalize, Vec3D.abs, HasSqrt.sqrt, hs]
    refine ⟨hpm, ⟨hx, hy, hz⟩, ⟨?_, ?_, ?_⟩, ⟨?_, ?_, ?_⟩⟩
    · rw [hx]; simp [Vec3D.abs, HasSqrt.sqrt, hu]
    · rw [hy]; simp [Vec3D.abs, HasSqrt.sqrt, hu]
    · rw [hz]; simp [Vec3D.abs, HasSqrt.sqrt, hu]
    · rw [hx]; simp [Vec3D.normalize, Vec3D.abs, HasSqrt.sqrt, hu]
    · rw [hy]; simp [Vec3D.normalize, Vec3D.abs, HasSqrt.sqrt, hu]
    · rw [hz]; simp [Vec3D.normalize, Vec3D.abs, HasSqrt.sqrt, hu]
  · obtain ⟨hx, hy, hz⟩ := Vec3D.normalize_axis s t w m e hm1 hm2 he1 he2
    obtain ⟨⟨ax, ay, az⟩, nx, ny, nz⟩ := Vec3D.normalize_unit_axis s t w
    rw [hx, hy, hz]
    exact ⟨⟨by decide, by decide⟩, ⟨rfl, rfl, rfl⟩, ⟨ax, ay, az⟩, nx, ny, nz⟩

/-- Witness for C14 (amended) at `a = 3`: over the reals, and in binary32 with
`3 = 12582912 * 2^-22` next to the zeros `+0` and `-0`. -/
theorem C14_normalize_axis_aligned_witness :
    ((3 : ℝ) ≠ 0 ∧ 2 ^ 23 ≤ 12582912 ∧ 12582912 < 2 ^ 24 ∧ (-86 : Int) ≤ -22 ∧
      (-22 : Int) ≤ 40 ∧ (3 : F32) = F32.fin false 12582912 (-22)) ∧
    (((3 : ℝ) / |(3 : ℝ)| = 1 ∨ (3 : ℝ) / |(3 : ℝ)| = -1) ∧
      (Vec3D.normalize (⟨3, 0, 0⟩ : Vec3D ℝ) = ⟨3 / |(3 : ℝ)|, 0, 0⟩ ∧
        Vec3D.normalize (⟨0, 3, 0⟩ : Vec3D ℝ) = ⟨0, 3 / |(3 : ℝ)|, 0⟩ ∧
        Vec3D.normalize (⟨0, 0, 3⟩ : Vec3D ℝ) = ⟨0, 0, 3 / |(3 : ℝ)|⟩) ∧
      ((Vec3D.abs (Vec3D.normalize (⟨3, 0, 0⟩ : Vec3D ℝ))).1 = 1 ∧
        (Vec3D.abs (Vec3D.normalize (⟨0, 3, 0⟩ : Vec3D ℝ))).1 = 1 ∧
        (Vec3D.abs (Vec3D.normalize (⟨0, 0, 3⟩ : Vec3D ℝ))).1 = 1) ∧
      (Vec3D.normalize (Vec3D.normalize (⟨3, 0, 0⟩ : Vec3D ℝ)) = Vec3D.normalize ⟨3, 0, 0⟩ ∧
        Vec3D.normalize (Vec3D.normalize (⟨0, 3, 0⟩ : Vec3D ℝ)) = Vec3D.normalize ⟨0, 3, 0⟩ ∧
        Vec3D.normalize (Vec3D.normalize (⟨0, 0, 3⟩ : Vec3D ℝ))
          = Vec3D.normalize ⟨0, 0, 3⟩)) ∧
    ((F32.fin false (2 ^ 23) (-23) = 1 ∧ F32.fin true (2 ^ 23) (-23) = -1) ∧
      (Vec3D.normalize (⟨F32.fin false 12582912 (-22), F32.zero false, F32.zero true⟩ :
            Vec3D F32)
          = ⟨F32.fin false (2 ^ 23) (-23), F32.zero false, F32.zero true⟩ ∧
        Vec3D.normalize (⟨F32.zero false, F32.fin false 12582912 (-22), F32.zero true⟩ :
            Vec3D F32)
          = ⟨F32.zero false, F32.fin false (2 ^ 23) (-23), F32.zero true⟩ ∧
        Vec3D.normalize (⟨F32.zero false, F32.zero true, F32.fin false 12582912 (-22)⟩ :
            Vec3D F32)
          = ⟨F32.zero false, F32.zero true, F32.fin false (2 ^ 23) (-23)⟩) ∧
      ((Vec3D.abs (Vec3D.normalize
            (⟨F32.fin false 12582912 (-22), F32.zero false, F32.zero true⟩ : Vec3D F32))).1 = 1 ∧
        (Vec3D.abs (Vec3D.normalize
            (⟨F32.zero false, F32.fin false 12582912 (-22), F32.zero true⟩ : Vec3D F32))).1 = 1 ∧
        (Vec3D.abs (Vec3D.normalize
            (⟨F32.zero false, F32.zero true, F32.fin false 12582912 (-22)⟩ : Vec3D F32))).1
          = 1) ∧
      (Vec3D.normalize (Vec3D.normalize
            (⟨F32.fin false 12582912 (-22), F32.zero false, F32.zero true⟩ : Vec3D F32))
          = Vec3D.normalize ⟨F32.fin false 12582912 (-22), F32.zero false, F32.zero true⟩ ∧
        Vec3D.normalize (Vec3D.normalize
            (⟨F32.zero false, F32.fin false 12582912 (-22), F32.zero true⟩ : Vec3D F32))
          = Vec3D.normalize ⟨F32.zero false, F32.fin false 12582912 (-22), F32.zero true⟩ ∧
        Vec3D.normalize (Vec3D.normalize
            (⟨F32.zero false, F32.zero true, F32.fin false 12582912 (-22)⟩ : Vec3D F32))
          = Vec3D.normalize ⟨F32.zero false, F32.zero true, F32.fin false 12582912 (-22)⟩)) :=
  ⟨⟨by norm_num, by decide, by decide, by decide, by decide, by decide⟩,
    C14_normalize_axis_aligned 3 (by norm_num) false false true 12582912 (-22)
      (by decide) (by decide) (by decide) (by decide)⟩

end Cex
